import Mathlib

set_option maxRecDepth 100000

/-!
# Verification of the petri_dish learning/compression engine

This file gives a shallow embedding of the core of the `petri_dish`
repository and proves (or refutes) the specification claims about it.

Modelling conventions, used consistently below:

* Bytes and pattern ids (`u8`, `u32` in the source) are modelled as `Nat`.
  None of the verified properties exercises 32-bit wraparound, and the
  source never allocates enough ids for it; where 8-bit behaviour matters
  (the saturating `complexity : u8`) the saturation is modelled explicitly.
* `f64` fields (`strength`, the stats ratios) are modelled as `ℚ`.  Every
  property proved or refuted here depends only on order comparisons and on
  exactly representable values, never on floating-point rounding.
* Rust `HashMap`s are modelled as association lists with newest-first
  (prepend) insertion.  `HashMap` iteration order is unspecified in Rust;
  all concrete counterexamples below are arranged so that they do not
  depend on the chosen order (ties never occur where order would matter).
* The byte buffer of the codec mode (`World.data : Vec<u8>`) is a
  `List Nat`; `Vec::splice` becomes take/append/drop surgery.
-/

/- The Batteries rational-number operations are irreducible by default,
which blocks kernel evaluation of concrete states by `decide`; restore
definitional transparency for them. -/
attribute [local semireducible] Rat.add Rat.sub Rat.mul Rat.inv

namespace PetriDish

/-- Cast of an `i64`-style integer into the `ℚ` model of `f64`. -/
def ratOfInt (n : Int) : ℚ := Rat.divInt n 1

/-- Cast of a `u32`-style natural into the `ℚ` model of `f64`. -/
def ratOfNat (n : Nat) : ℚ := Rat.divInt (Int.ofNat n) 1

/-- Operator of a hierarchical pattern: a literal byte, or a composite of two
existing pattern ids (`Operator::Literal` / `Operator::Combine` of the
hierarchical mode, src/pattern.rs and src/builder.rs). -/
inductive Operator where
  | literal (b : Nat)
  | combine (l r : Nat)
deriving DecidableEq

/-- `Pattern` from src/pattern.rs: one learned unit with utility counters.
`strength : f64` is modelled as `ℚ`; `complexity : u8` as a `Nat` that the
constructors keep at most 255. -/
structure Pattern where
  id : Nat
  op : Operator
  strength : ℚ
  last_used : Nat
  complexity : Nat
  usage_count : Nat
deriving DecidableEq

/-- `Pattern::new_literal`: complexity 0, strength pinned at 1.0. -/
def Pattern.new_literal (id b : Nat) : Pattern :=
  { id := id
    op := .literal b
    strength := 1
    last_used := 0
    complexity := 0
    usage_count := 0 }

/-- `Pattern::new_combine`: complexity is `max(left, right).saturating_add(1)`
on a `u8`, i.e. `min (max l r + 1) 255`; strength starts at 0.5. -/
def Pattern.new_combine (id left_id right_id lc rc cycle : Nat) : Pattern :=
  { id := id
    op := .combine left_id right_id
    strength := 1/2
    last_used := cycle
    complexity := (min (max lc rc + 1) 255)
    usage_count := 0 }

/-- `Pattern::strengthen`: saturating addition toward 1.0, touch the
timestamp, bump the usage counter. -/
def Pattern.strengthen (p : Pattern) (amount : ℚ) (cycle : Nat) : Pattern :=
  { p with
    strength := (min (p.strength + amount) 1)
    last_used := cycle
    usage_count := p.usage_count + 1 }

/-- `Pattern::weaken`: saturating subtraction toward 0.0. -/
def Pattern.weaken (p : Pattern) (amount : ℚ) : Pattern :=
  { p with strength := (max (p.strength - amount) 0) }

/-- `Pattern::is_literal`. -/
def Pattern.is_literal (p : Pattern) : Bool :=
  match p.op with
  | .literal _ => true
  | .combine _ _ => false

/-- `PatternBank` from src/builder.rs: the id-indexed pattern store plus the
`(left, right) → id` pair index, the monotone id allocator, and the stored
capacity.  Both `HashMap`s are modelled as lists; lookups scan for the first
match, insertion prepends a fresh entry. -/
structure PatternBank where
  patterns : List Pattern
  pair_lookup : List ((Nat × Nat) × Nat)
  next_id : Nat
  capacity : Nat
deriving DecidableEq

/-- `PatternBank::new(capacity)`: the 256 pinned literals with ids 0..=255;
note that the stored `capacity` field is `capacity + 256` in the source
("256 literaalia + capacity yhdistelmiä"). -/
def PatternBank.new (capacity : Nat) : PatternBank :=
  { patterns := (List.range 256).map (fun b => Pattern.new_literal b b)
    pair_lookup := []
    next_id := 256
    capacity := capacity + 256 }

/-- `PatternBank::get`. -/
def PatternBank.get (bank : PatternBank) (id : Nat) : Option Pattern :=
  bank.patterns.find? (fun p => p.id == id)

/-- `PatternBank::literal_id`. -/
def PatternBank.literal_id (_bank : PatternBank) (b : Nat) : Nat := b

/-- `PatternBank::get_pair_id`. -/
def PatternBank.get_pair_id (bank : PatternBank) (left right : Nat) : Option Nat :=
  (bank.pair_lookup.find? (fun e => e.1 == (left, right))).map (fun e => e.2)

/-- `PatternBank::has_pair`. -/
def PatternBank.has_pair (bank : PatternBank) (left right : Nat) : Bool :=
  (bank.get_pair_id left right).isSome

/-- Complexity of the pattern stored under `id`, defaulting to 0 when the id
is absent — this mirrors `self.patterns.get(&left).map(|p| p.complexity)
.unwrap_or(0)` inside `create_combine`. -/
def PatternBank.complexity_of (bank : PatternBank) (id : Nat) : Nat :=
  ((bank.get id).map (fun p => p.complexity)).getD 0

/-- `PatternBank::create_combine`: return the existing id when the pair is
already present; fail with `none` at capacity; otherwise allocate a fresh id
and install pattern and pair-index entry.  Returns the updated bank together
with the result. -/
def PatternBank.create_combine (bank : PatternBank) (left right cycle : Nat) :
    PatternBank × Option Nat :=
  match bank.get_pair_id left right with
  | some id => (bank, some id)
  | none =>
    if bank.capacity ≤ bank.patterns.length then
      (bank, none)
    else
      let lc := bank.complexity_of left
      let rc := bank.complexity_of right
      let id := bank.next_id
      let p := Pattern.new_combine id left right lc rc cycle
      ({ bank with
          patterns := p :: bank.patterns
          pair_lookup := ((left, right), id) :: bank.pair_lookup
          next_id := id + 1 },
        some id)

/-- The pair-index bookkeeping of `PatternBank::remove`: the `(l, r)` entry
is deleted only when the removed pattern is a `Combine`. -/
def erase_pair_entry (pl : List ((Nat × Nat) × Nat)) :
    Operator → List ((Nat × Nat) × Nat)
  | .combine l r => pl.eraseP (fun e => e.1 == (l, r))
  | .literal _ => pl

/-- `PatternBank::remove`: delete the record under `id` if present and return
it; when the removed pattern is a `Combine(l, r)`, also delete the `(l, r)`
entry from the pair index.  There is no special case for literals in the
source. -/
def PatternBank.remove (bank : PatternBank) (id : Nat) : PatternBank × Option Pattern :=
  match bank.get id with
  | none => (bank, none)
  | some p =>
    ({ bank with
        patterns := bank.patterns.eraseP (fun q => q.id == id)
        pair_lookup := erase_pair_entry bank.pair_lookup p.op }, some p)

/-- Stable insertion step for sorting `(id, strength)` entries by ascending
strength, mirroring `sort_by(partial_cmp)` (a stable sort) in
`get_weakest`. -/
def insert_by_strength (x : Nat × ℚ) : List (Nat × ℚ) → List (Nat × ℚ)
  | [] => [x]
  | y :: ys => if x.2 < y.2 then x :: y :: ys else y :: insert_by_strength x ys

/-- Stable sort by ascending strength. -/
def sort_by_strength : List (Nat × ℚ) → List (Nat × ℚ)
  | [] => []
  | x :: xs => insert_by_strength x (sort_by_strength xs)

/-- `PatternBank::get_weakest`: the ids of the up-to-`count` non-literal
patterns of lowest strength. -/
def PatternBank.get_weakest (bank : PatternBank) (count : Nat) : List Nat :=
  let combines := (bank.patterns.filter (fun p => !p.is_literal)).map
    (fun p => (p.id, p.strength))
  ((sort_by_strength combines).take count).map (fun e => e.1)

/-- `PatternBank::len`. -/
def PatternBank.len (bank : PatternBank) : Nat :=
  bank.patterns.length

/-- `PatternBank::combine_count`: number of non-literal patterns. -/
def PatternBank.combine_count (bank : PatternBank) : Nat :=
  (bank.patterns.filter (fun p => !p.is_literal)).length

/-- Fuelled decoder.  `PatternBank::decode` recurses through `Combine`
children; in the source, termination relies on children having been created
before their parents.  The fuel argument makes the recursion total; for
every bank whose combine children have smaller ids than their parents,
`fuel = id + 1` is enough and larger fuel gives the same answer. -/
def PatternBank.decodeF (bank : PatternBank) : Nat → Nat → List Nat
  | 0, _ => []
  | fuel + 1, id =>
    match bank.get id with
    | none => []
    | some p =>
      match p.op with
      | .literal b => [b]
      | .combine l r => bank.decodeF fuel l ++ bank.decodeF fuel r

/-- `PatternBank::decode`. -/
def PatternBank.decode (bank : PatternBank) (id : Nat) : List Nat :=
  bank.decodeF (id + 1) id

/-- `Builder` from src/builder.rs.  `pair_stats` is recomputed from the
stream whenever used, so it is not part of the state.  All fields of the
Rust struct are public (the repository's tests write to `bank`,
`token_stream` and pattern strengths directly). -/
structure Builder where
  bank : PatternBank
  token_stream : List Nat
  cycle : Nat
  pair_threshold : Nat
  death_threshold : ℚ
  strengthen_amount : ℚ
  weaken_amount : ℚ
deriving DecidableEq

/-- `Builder::new`. -/
def Builder.new (pattern_capacity : Nat) : Builder :=
  { bank := PatternBank.new pattern_capacity
    token_stream := []
    cycle := 0
    pair_threshold := 2
    death_threshold := 1/10
    strengthen_amount := 1/10
    weaken_amount := 1/20 }

/-- `Builder::tokenize`: push the literal id of every input byte onto the
stream (`literal_id` is the identity). -/
def Builder.tokenize (b : Builder) (data : List Nat) : Builder :=
  { b with token_stream := b.token_stream ++ data.map (fun byte => b.bank.literal_id byte) }

/-- `Builder::decode_stream`: concatenation of `decode` over the stream. -/
def Builder.decode_stream (b : Builder) : List Nat :=
  (b.token_stream.map (fun id => b.bank.decode id)).flatten

/-- The stream rewrite performed by `Builder::forget` before deleting a
composite: every direct occurrence of `id` in the token stream is replaced
by the two children `l, r`. -/
def expand_token (id l r : Nat) (stream : List Nat) : List Nat :=
  (stream.map (fun t => if t = id then [l, r] else [t])).flatten

/-- One step of the removal loop of `Builder::forget`: expand direct stream
occurrences of the dying composite into its children, then delete its
record; the removal counter is incremented unconditionally, as in the
source. -/
def Builder.forget_step (acc : Builder × Nat) (id : Nat) : Builder × Nat :=
  let b := acc.1
  let stream1 :=
    match b.bank.get id with
    | some p =>
      match p.op with
      | .combine l r => expand_token id l r b.token_stream
      | .literal _ => b.token_stream
    | none => b.token_stream
  ({ b with
      token_stream := stream1
      bank := (b.bank.remove id).1 }, acc.2 + 1)

/-- `Builder::forget(force_count)`: when forced, remove that many patterns;
otherwise fire only when the combine count exceeds
`bank.capacity * FORGET_CAPACITY_THRESHOLD / 100` — note that the stored
`bank.capacity` includes the 256 literals — and then remove
`combine_count * FORGET_REMOVAL_PERCENTAGE / 100` of the weakest composites.
Returns the updated builder and the number of removals performed. -/
def Builder.forget (b : Builder) (force_count : Nat) : Builder × Nat :=
  let combine_count := b.bank.combine_count
  let to_remove :=
    if 0 < force_count then force_count
    else if b.bank.capacity * 80 / 100 < combine_count then
      combine_count * 10 / 100
    else 0
  if to_remove = 0 then (b, 0)
  else (b.bank.get_weakest to_remove).foldl Builder.forget_step (b, 0)

/-- `Builder::decay`: weaken every non-literal pattern. -/
def Builder.decay (b : Builder) (amount : ℚ) : Builder :=
  { b with
    bank := { b.bank with
      patterns := b.bank.patterns.map
        (fun p => if p.is_literal then p else p.weaken amount) } }

/-! ## Codec mode: World, Patch, Evaluator, the Solver acceptance kernels -/

/-- `Patch` from src/world.rs: a half-open range `start..stop` over the
buffer together with the replacement bytes. -/
structure Patch where
  start : Nat
  stop : Nat
  new_data : List Nat
deriving DecidableEq

/-- `World::get_data_in_range`: the bytes of `data[start..stop]`. -/
def get_data_in_range (data : List Nat) (start stop : Nat) : List Nat :=
  (data.take stop).drop start

/-- `World::apply_patch`: `data.splice(range, new_data)` — replace the bytes
of `start..stop` with `new_data`. -/
def apply_patch (data : List Nat) (p : Patch) : List Nat :=
  data.take p.start ++ p.new_data ++ data.drop p.stop

/-- `World::rollback`: splice the saved original bytes back over
`start .. start + new_data.len()`, the region the patch now occupies. -/
def rollback (data : List Nat) (p : Patch) (original_data : List Nat) : List Nat :=
  data.take p.start ++ original_data ++ data.drop (p.start + p.new_data.length)

/-- Operator opcodes (src/operator.rs): `OP_RLE = 0xFF`, `OP_LZ = 0xFE`,
`OP_DELTA = 0xFD`, `OP_XOR = 0xFC`, `OP_DICT = 0xFB`. -/
def OP_RLE : Nat := 255
def OP_LZ : Nat := 254
def OP_DELTA : Nat := 253
def OP_XOR : Nat := 252
def OP_DICT : Nat := 251

/-- The scanning loop of `Evaluator::calculate_cost_breakdown`, written with
the cursor position replaced by the unscanned suffix of the buffer.  The
fuel argument bounds the number of loop iterations; every iteration consumes
at least one byte, so fuel equal to the buffer length is always enough.
Returns `(c_models, c_residual)`. -/
def cost_breakdown_go : Nat → List Nat → Nat × Nat
  | 0, _ => (0, 0)
  | _ + 1, [] => (0, 0)
  | fuel + 1, b :: rest =>
    if b = OP_RLE ∧ 2 ≤ rest.length then
      let r := cost_breakdown_go fuel (rest.drop 2)
      (r.1 + 3, r.2)
    else if b = OP_LZ ∧ 3 ≤ rest.length then
      let r := cost_breakdown_go fuel (rest.drop 3)
      (r.1 + 4, r.2)
    else if b = OP_DELTA ∧ 3 ≤ rest.length then
      let r := cost_breakdown_go fuel (rest.drop 3)
      (r.1 + 4, r.2)
    else if b = OP_XOR ∧ 4 ≤ rest.length then
      let key_len := rest.getD 2 0
      let op_len := 5 + key_len
      if op_len ≤ rest.length + 1 then
        let r := cost_breakdown_go fuel (rest.drop (op_len - 1))
        (r.1 + op_len, r.2)
      else
        let r := cost_breakdown_go fuel rest
        (r.1, r.2 + 1)
    else if b = OP_DICT ∧ 2 ≤ rest.length then
      let r := cost_breakdown_go fuel (rest.drop 2)
      (r.1 + 3, r.2)
    else
      let r := cost_breakdown_go fuel rest
      (r.1, r.2 + 1)

/-- `Evaluator::calculate_cost_breakdown`: `(C_models, C_residual)` of the
buffer.  The loop guards are transcribed from src/evaluator.rs:
`data[i] == OP && i + k < data.len()` becomes a bound on the length of the
suffix after the opcode byte. -/
def calculate_cost_breakdown (data : List Nat) : Nat × Nat :=
  cost_breakdown_go data.length data

/-- `Evaluator::calculate_total_cost`. -/
def calculate_total_cost (data : List Nat) : Nat :=
  (calculate_cost_breakdown data).1 + (calculate_cost_breakdown data).2

/-- `Evaluator::calculate_gain`: `cost_before as i32 - cost_after as i32`. -/
def calculate_gain (cost_before cost_after : Nat) : Int :=
  (cost_before : Int) - (cost_after : Int)

/-- `MIN_ACCEPT_GAIN` of src/solver.rs. -/
def MIN_ACCEPT_GAIN : Int := 3

/-- The buffer transformation of the `Action::Exploit` branch of
`Solver::live` (src/solver.rs lines 186-210) once `exploit` has produced a
patch (already translated to global coordinates): measure the cost, apply,
re-measure; keep the patch only when the gain is strictly positive,
otherwise roll back the saved bytes. -/
def exploit_world_step (data : List Nat) (p : Patch) : List Nat :=
  let cost_before := calculate_total_cost data
  let original_data := get_data_in_range data p.start p.stop
  let d1 := apply_patch data p
  let cost_after := calculate_total_cost d1
  let gain := calculate_gain cost_before cost_after
  if 0 < gain then d1 else rollback d1 p original_data

/-- The buffer transformation of `Solver::handle_explore_patch` for a patch
already translated to global coordinates: apply, measure the gain, and roll
back unless `gain ≥ MIN_ACCEPT_GAIN`. -/
def handle_explore_patch_world (data : List Nat) (p : Patch) : List Nat :=
  let cost_before := calculate_total_cost data
  let original_data := get_data_in_range data p.start p.stop
  let d1 := apply_patch data p
  let cost_after := calculate_total_cost d1
  let gain := calculate_gain cost_before cost_after
  if gain < MIN_ACCEPT_GAIN then rollback d1 p original_data else d1

/-- One substitution of `Solver::repack_compressed_data`: the occurrence of a
repeated sequence of length `seq_len` at position `i` is spliced out and
replaced by the 3-byte encoding `[OP_DICT, word_id & 0xFF,
(word_id >> 8) & 0xFF]`.  The repack loop performs this without any
rollback; `seq_len` is always between 4 and 48 there. -/
def repack_splice (data : List Nat) (i seq_len word_id : Nat) : List Nat :=
  data.take i ++ [OP_DICT, word_id % 256, word_id / 256 % 256] ++ data.drop (i + seq_len)

/-! ## Stats (src/stats.rs) -/

/-- `Stats`: per-cycle accounting.  The three `gain_per_quota` ratios are
`f64` in the source, modelled as `ℚ`. -/
structure Stats where
  gain_per_quota_exploit : ℚ
  gain_per_quota_explore : ℚ
  gain_per_quota_meta : ℚ
  c_models : Nat
  c_residual : Nat
  quota_spent_exploit : Nat
  quota_spent_explore : Nat
  quota_spent_meta : Nat
  quota_spent_seek : Nat
  bytes_saved_exploit : Int
  bytes_saved_explore : Int
  bytes_saved_meta : Int
deriving DecidableEq

/-- `Stats::new`: everything zero. -/
def Stats.new : Stats :=
  { gain_per_quota_exploit := 0
    gain_per_quota_explore := 0
    gain_per_quota_meta := 0
    c_models := 0
    c_residual := 0
    quota_spent_exploit := 0
    quota_spent_explore := 0
    quota_spent_meta := 0
    quota_spent_seek := 0
    bytes_saved_exploit := 0
    bytes_saved_explore := 0
    bytes_saved_meta := 0 }

/-- `Stats::reset_cycle`: zero the quota and byte counters.  The derived
`gain_per_quota` fields are left untouched, exactly as in the source. -/
def Stats.reset_cycle (s : Stats) : Stats :=
  { s with
    quota_spent_exploit := 0
    quota_spent_explore := 0
    quota_spent_meta := 0
    quota_spent_seek := 0
    bytes_saved_exploit := 0
    bytes_saved_explore := 0
    bytes_saved_meta := 0 }

/-- `Stats::update_gain_per_quota`: recompute each ratio, but only when the
corresponding quota counter is positive. -/
def Stats.update_gain_per_quota (s : Stats) : Stats :=
  let s1 :=
    if 0 < s.quota_spent_exploit then
      { s with gain_per_quota_exploit :=
          ratOfInt s.bytes_saved_exploit / ratOfNat s.quota_spent_exploit }
    else s
  let s2 :=
    if 0 < s1.quota_spent_explore then
      { s1 with gain_per_quota_explore :=
          ratOfInt s1.bytes_saved_explore / ratOfNat s1.quota_spent_explore }
    else s1
  if 0 < s2.quota_spent_meta then
    { s2 with gain_per_quota_meta :=
        ratOfInt s2.bytes_saved_meta / ratOfNat s2.quota_spent_meta }
  else s2

/-- `Stats::record_exploit`. -/
def Stats.record_exploit (s : Stats) (quota_spent : Nat) (bytes_saved : Int) : Stats :=
  Stats.update_gain_per_quota
    { s with
      quota_spent_exploit := s.quota_spent_exploit + quota_spent
      bytes_saved_exploit := s.bytes_saved_exploit + bytes_saved }

/-- `Stats::record_explore`. -/
def Stats.record_explore (s : Stats) (quota_spent : Nat) (bytes_saved : Int) : Stats :=
  Stats.update_gain_per_quota
    { s with
      quota_spent_explore := s.quota_spent_explore + quota_spent
      bytes_saved_explore := s.bytes_saved_explore + bytes_saved }

/-- `Stats::record_meta`. -/
def Stats.record_meta (s : Stats) (quota_spent : Nat) (bytes_saved : Int) : Stats :=
  Stats.update_gain_per_quota
    { s with
      quota_spent_meta := s.quota_spent_meta + quota_spent
      bytes_saved_meta := s.bytes_saved_meta + bytes_saved }

/-- `Stats::record_seek`. -/
def Stats.record_seek (s : Stats) (quota_spent : Nat) : Stats :=
  { s with quota_spent_seek := s.quota_spent_seek + quota_spent }

/-- `Stats::update_costs`. -/
def Stats.update_costs (s : Stats) (c_models c_residual : Nat) : Stats :=
  { s with c_models := c_models, c_residual := c_residual }

/-- The `Stats` mutations reachable through the public interface, used to
state invariants over arbitrary call sequences. -/
inductive StatsOp where
  | reset_cycle
  | record_exploit (quota_spent : Nat) (bytes_saved : Int)
  | record_explore (quota_spent : Nat) (bytes_saved : Int)
  | record_meta (quota_spent : Nat) (bytes_saved : Int)
  | record_seek (quota_spent : Nat)
  | update_costs (c_models c_residual : Nat)
deriving DecidableEq

/-- Apply one `StatsOp`. -/
def Stats.apply_op (s : Stats) : StatsOp → Stats
  | .reset_cycle => s.reset_cycle
  | .record_exploit q b => s.record_exploit q b
  | .record_explore q b => s.record_explore q b
  | .record_meta q b => s.record_meta q b
  | .record_seek q => s.record_seek q
  | .update_costs m r => s.update_costs m r

/-- Run a sequence of `StatsOp`s from `Stats::new`. -/
def Stats.run (ops : List StatsOp) : Stats :=
  ops.foldl Stats.apply_op Stats.new

/-! ## Bank operation sequences

The `PatternBank` interface mutates a bank through `create_combine`,
`remove`, and field updates of a pattern obtained from `get_mut` (the
callers in src/builder.rs only ever write `strength`, `last_used` and
`usage_count` — `strengthen`, `weaken`, and the tests' direct strength
assignment).  `BankOp` captures exactly these mutations so that invariants
can be stated over every reachable bank. -/
inductive BankOp where
  | create_combine (left right cycle : Nat)
  | remove (id : Nat)
  | touch (id : Nat) (strength : ℚ) (last_used usage_count : Nat)
deriving DecidableEq

/-- The `get_mut`-style update: overwrite the mutable counters of the
pattern stored under `id`, leaving `id`, `op` and `complexity` unchanged
(no caller ever writes those). -/
def PatternBank.touch (bank : PatternBank) (id : Nat) (strength : ℚ)
    (last_used usage_count : Nat) : PatternBank :=
  { bank with
    patterns := bank.patterns.map (fun p =>
      if p.id = id then
        { p with
          strength := strength
          last_used := last_used
          usage_count := usage_count }
      else p) }

/-- Apply one `BankOp`. -/
def PatternBank.apply_op (bank : PatternBank) : BankOp → PatternBank
  | .create_combine l r c => (bank.create_combine l r c).1
  | .remove id => (bank.remove id).1
  | .touch id s lu uc => bank.touch id s lu uc

/-- Run a sequence of `BankOp`s from `PatternBank::new capacity`. -/
def PatternBank.run (capacity : Nat) (ops : List BankOp) : PatternBank :=
  ops.foldl PatternBank.apply_op (PatternBank.new capacity)

/-! ## The full hierarchical cycle: explore, collapse, decay, live -/

/-- `MAX_TOP_PAIRS` of src/builder.rs. -/
def MAX_TOP_PAIRS : Nat := 10

/-- `STRENGTHEN_SCALE_FACTOR` of src/builder.rs (`10.0 : f64`). -/
def STRENGTHEN_SCALE_FACTOR : ℚ := 10

/-- `DEFAULT_DECAY_RATE` of src/builder.rs (`0.01 : f64`). -/
def DEFAULT_DECAY_RATE : ℚ := Rat.divInt 1 100

/-- One `PairStats::record` call: bump the count of `key`, inserting a fresh
entry (first-seen order) when absent. -/
def pair_stats_record (counts : List ((Nat × Nat) × Nat)) (key : Nat × Nat) :
    List ((Nat × Nat) × Nat) :=
  match counts with
  | [] => [(key, 1)]
  | e :: rest =>
    if e.1 = key then (e.1, e.2 + 1) :: rest
    else e :: pair_stats_record rest key

/-- The adjacent pairs of the stream: `windows(2)`. -/
def stream_pairs (stream : List Nat) : List (Nat × Nat) :=
  stream.zip (stream.drop 1)

/-- `Builder::compute_pair_stats`: clear and recount every adjacent window
of size 2 (a stream of fewer than 2 tokens yields no pairs). -/
def compute_pair_stats (stream : List Nat) : List ((Nat × Nat) × Nat) :=
  if stream.length < 2 then []
  else (stream_pairs stream).foldl pair_stats_record []

/-- Stable descending insertion by count, mirroring the stable
`sort_by(|a, b| b.1.cmp(&a.1))` in `PairStats::get_top_pairs`. -/
def insert_by_count_desc (x : (Nat × Nat) × Nat) :
    List ((Nat × Nat) × Nat) → List ((Nat × Nat) × Nat)
  | [] => [x]
  | y :: ys => if y.2 < x.2 then x :: y :: ys else y :: insert_by_count_desc x ys

/-- Stable sort by descending count. -/
def sort_by_count_desc : List ((Nat × Nat) × Nat) → List ((Nat × Nat) × Nat)
  | [] => []
  | x :: xs => insert_by_count_desc x (sort_by_count_desc xs)

/-- `PairStats::get_top_pairs`: entries with count at least `threshold`,
sorted by descending count, truncated to `max_count`. -/
def get_top_pairs (counts : List ((Nat × Nat) × Nat)) (threshold : Nat)
    (max_count : Nat) : List ((Nat × Nat) × Nat) :=
  (sort_by_count_desc (counts.filter (fun e => threshold ≤ e.2))).take max_count

/-- The `get_mut`-plus-`strengthen` combination used by `explore` and
`collapse`. -/
def strengthen_in_bank (bank : PatternBank) (id : Nat) (amount : ℚ)
    (cycle : Nat) : PatternBank :=
  { bank with
    patterns := bank.patterns.map (fun p =>
      if p.id = id then p.strengthen amount cycle else p) }

/-- One iteration of the `explore` loop over a top pair: strengthen the
existing composite when the pair is known, otherwise attempt to create it
(counting successful creations). -/
def Builder.explore_step (acc : Builder × Nat) (e : (Nat × Nat) × Nat) :
    Builder × Nat :=
  let b := acc.1
  let l := e.1.1
  let r := e.1.2
  let count := e.2
  if b.bank.has_pair l r then
    match b.bank.get_pair_id l r with
    | some id =>
      ({ b with
          bank := strengthen_in_bank b.bank id
            (b.strengthen_amount * (ratOfNat count / STRENGTHEN_SCALE_FACTOR))
            b.cycle }, acc.2)
    | none => (b, acc.2)
  else
    let created := b.bank.create_combine l r b.cycle
    match created.2 with
    | some _ => ({ b with bank := created.1 }, acc.2 + 1)
    | none => ({ b with bank := created.1 }, acc.2)

/-- `Builder::explore`: recompute pair statistics, take the top pairs, and
process each (the printouts of the source only perform pure reads).
Returns the builder and the number of created patterns. -/
def Builder.explore (b : Builder) : Builder × Nat :=
  let stats := compute_pair_stats b.token_stream
  let top := get_top_pairs stats b.pair_threshold MAX_TOP_PAIRS
  top.foldl Builder.explore_step (b, 0)

/-- The scanning loop of `Builder::collapse`: at each position, if the
adjacent pair maps to a pattern of strength at least 0.5, emit the
composite id, strengthen it and advance by 2; otherwise emit the current
token and advance by 1.  Returns the bank (mutated by the strengthens), the
rewritten stream, and the number of substitutions. -/
def collapse_go (bank : PatternBank) (stream : List Nat) (amount : ℚ)
    (cycle : Nat) : PatternBank × List Nat × Nat :=
  match stream with
  | x :: y :: rest =>
    match bank.get_pair_id x y with
    | some cid =>
      match bank.get cid with
      | some p =>
        if Rat.divInt 1 2 ≤ p.strength then
          let bank2 := strengthen_in_bank bank cid amount cycle
          let rec2 := collapse_go bank2 rest amount cycle
          (rec2.1, cid :: rec2.2.1, rec2.2.2 + 1)
        else
          let rec2 := collapse_go bank (y :: rest) amount cycle
          (rec2.1, x :: rec2.2.1, rec2.2.2)
      | none =>
        let rec2 := collapse_go bank (y :: rest) amount cycle
        (rec2.1, x :: rec2.2.1, rec2.2.2)
    | none =>
      let rec2 := collapse_go bank (y :: rest) amount cycle
      (rec2.1, x :: rec2.2.1, rec2.2.2)
  | s => (bank, s, 0)

/-- `Builder::collapse`: one left-to-right greedy pass. -/
def Builder.collapse (b : Builder) : Builder × Nat :=
  if b.token_stream.length < 2 then (b, 0)
  else
    let r := collapse_go b.bank b.token_stream b.strengthen_amount b.cycle
    ({ b with bank := r.1, token_stream := r.2.1 }, r.2.2)

/-- The collapse-until-fixpoint loop of `Builder::live`.  The source loops
until a pass makes no substitution; every productive pass strictly shortens
the stream, so fuel `stream length + 1` reproduces the loop exactly. -/
def collapse_loop : Nat → Builder → Builder × Nat
  | 0, b => (b, 0)
  | fuel + 1, b =>
    let r := b.collapse
    if r.2 = 0 then (r.1, 0)
    else
      let r2 := collapse_loop fuel r.1
      (r2.1, r.2 + r2.2)

/-- `Builder::live`: bump the cycle, explore, collapse until no
substitution, forget (unforced), decay.  The `BuilderStats` record the
source assembles from the intermediate counters is pure reporting and is
omitted. -/
def Builder.live (b : Builder) : Builder :=
  let b1 := { b with cycle := b.cycle + 1 }
  let b2 := b1.explore.1
  let b3 := (collapse_loop (b2.token_stream.length + 1) b2).1
  let b4 := (b3.forget 0).1
  b4.decay DEFAULT_DECAY_RATE

/-- N cycles of `live`. -/
def Builder.liveN (b : Builder) : Nat → Builder
  | 0 => b
  | n + 1 => (b.liveN n).live

/-- The gain-per-quota relationship that `Stats` actually maintains: for each
action class, whenever the quota counter is positive, the stored ratio
equals `bytes_saved / quota_spent` over the current counters.  (When the
counter is zero the field keeps its previous value.) -/
def StatsGainInv (s : Stats) : Prop :=
  (0 < s.quota_spent_exploit →
      s.gain_per_quota_exploit
        = ratOfInt s.bytes_saved_exploit / ratOfNat s.quota_spent_exploit)
    ∧ (0 < s.quota_spent_explore →
        s.gain_per_quota_explore
          = ratOfInt s.bytes_saved_explore / ratOfNat s.quota_spent_explore)
    ∧ (0 < s.quota_spent_meta →
        s.gain_per_quota_meta
          = ratOfInt s.bytes_saved_meta / ratOfNat s.quota_spent_meta)

/-- A builder over a bank with composite capacity 100 holding 81 composites,
built through `create_combine` with pairs `(0, 1) .. (0, 81)`. -/
def builder_81_combines : Builder :=
  { Builder.new 100 with
    bank := PatternBank.run 100
      ((List.range 81).map (fun i => BankOp.create_combine 0 (i + 1) 0)) }

/-- The complexity relation the bank actually maintains: a `Combine`
pattern's complexity strictly exceeds the complexity of each of its children
present in the bank with a smaller id (i.e. allocated before it), except
when the child's complexity has saturated at the `u8` bound 255. -/
def ComplexityInv (bank : PatternBank) : Prop :=
  ∀ p ∈ bank.patterns, ∀ l r : Nat, p.op = .combine l r →
    ∀ q ∈ bank.patterns, (q.id = l ∨ q.id = r) → q.id < p.id →
      q.complexity < p.complexity ∨ q.complexity = 255

/-- The complexity claim exactly as stated in the specification: every
`Combine` pattern's complexity strictly exceeds the complexity of each of
its children present in the bank. -/
def StrictComplexityClaim (bank : PatternBank) : Prop :=
  ∀ p ∈ bank.patterns, ∀ l r : Nat, p.op = .combine l r →
    ∀ q ∈ bank.patterns, (q.id = l ∨ q.id = r) →
      q.complexity < p.complexity

/-- Well-formedness facts maintained by every bank operation, strengthened
enough to push `ComplexityInv` through `create_combine`. -/
structure BankWF (bank : PatternBank) : Prop where
  ids_lt : ∀ p ∈ bank.patterns, p.id < bank.next_id
  nodup : (bank.patterns.map (fun p => p.id)).Nodup
  cx_le : ∀ p ∈ bank.patterns, p.complexity ≤ 255
  inv : ComplexityInv bank

/-- A bank holding a forward reference: `create_combine(257, 0)` is accepted
while id 257 does not exist yet (its complexity is read as 0), and the next
creation then allocates id 257. -/
def forward_ref_bank : PatternBank :=
  PatternBank.run 10 [BankOp.create_combine 257 0 0, BankOp.create_combine 0 1 0]

/-- A bank holding `P256 = Combine(97, 98)` with strength 0.2 and
`P257 = Combine(256, 256)` with strength 0.9, built through the public
interface (`create_combine` twice, then direct strength writes as the
repository's own tests perform through the public `strength` field). -/
def nested_bank : PatternBank :=
  ((((PatternBank.new 10).create_combine 97 98 0).1.create_combine
      256 256 0).1.touch 256 (Rat.divInt 2 10) 0 0).touch
    257 (Rat.divInt 9 10) 0 0

/-- A builder whose token stream consists of the single composite `P257`,
whose child `P256` is the weakest pattern in the bank. -/
def nested_child_builder : Builder :=
  { Builder.new 10 with
    bank := nested_bank
    token_stream := [257] }

/-- Children of combine patterns precede their parents. -/
def OrderedBank (bank : PatternBank) : Prop :=
  ∀ p ∈ bank.patterns, ∀ l r : Nat, p.op = .combine l r → l < p.id ∧ r < p.id

/-- All stream tokens resolve in the bank. -/
def StreamOK (bank : PatternBank) (stream : List Nat) : Prop :=
  ∀ t ∈ stream, (bank.get t).isSome

/-- Bank well-formedness maintained by the `Builder` operations: distinct
ids below the allocator, children precede parents, the pair index is
consistent with the stored patterns, the 256 literals are intact, and the
size respects the stored capacity. -/
structure BankLiveWF (bank : PatternBank) : Prop where
  nodup : (bank.patterns.map (fun p => p.id)).Nodup
  ids_lt : ∀ p ∈ bank.patterns, p.id < bank.next_id
  ordered : OrderedBank bank
  pair_consistent : ∀ e ∈ bank.pair_lookup,
    ∃ p ∈ bank.patterns, p.id = e.2 ∧ p.op = .combine e.1.1 e.1.2
  literal_at : ∀ byte : Nat, byte < 256 →
    ∃ p, bank.get byte = some p ∧ p.op = .literal byte
  len_le : bank.patterns.length ≤ bank.capacity
  lit_count : (bank.patterns.filter (fun p => p.is_literal)).length = 256
  cap_ge : 256 ≤ bank.capacity

/-- How a bank may change during a cycle without disturbing decoding of the
already-allocated ids: capacity fixed, allocator monotone, decoding below
the old allocator unchanged, resolvable ids stay resolvable. -/
def BankEvolves (bank bank2 : PatternBank) : Prop :=
  bank2.capacity = bank.capacity
    ∧ bank.next_id ≤ bank2.next_id
    ∧ (∀ fuel id : Nat, id < bank.next_id →
        bank2.decodeF fuel id = bank.decodeF fuel id)
    ∧ ∀ t : Nat, (bank.get t).isSome → (bank2.get t).isSome

/-! ## Theorems -/

/-- Claim C5: idempotent pair creation.  Calling `create_combine(l, r, c1)`
and then `create_combine(l, r, c2)` on the resulting bank returns the same
result both times (the same id when the first call succeeded, `None` twice
when the bank was at capacity with the pair absent), the second call leaves
the bank exactly as the first call left it, and in particular does not
change the number of patterns.  This holds for every bank, also at
capacity. -/
theorem create_combine_idempotent (bank : PatternBank) (l r c1 c2 : Nat) :
    ((bank.create_combine l r c1).1.create_combine l r c2).2
        = (bank.create_combine l r c1).2
      ∧ ((bank.create_combine l r c1).1.create_combine l r c2).1
        = (bank.create_combine l r c1).1
      ∧ ((bank.create_combine l r c1).1.create_combine l r c2).1.patterns.length
        = (bank.create_combine l r c1).1.patterns.length := by
  unfold PatternBank.create_combine
  cases h : bank.get_pair_id l r with
  | some id => simp [h]
  | none =>
    by_cases hcap : bank.capacity ≤ bank.patterns.length
    · simp [h, hcap]
    · simp only [h, if_neg hcap]
      have hpair : (PatternBank.get_pair_id
          { bank with
            patterns := Pattern.new_combine bank.next_id l r
              (bank.complexity_of l) (bank.complexity_of r) c1 :: bank.patterns
            pair_lookup := ((l, r), bank.next_id) :: bank.pair_lookup
            next_id := bank.next_id + 1 } l r) = some bank.next_id := by
        simp [PatternBank.get_pair_id]
      simp [hpair]

/-- Every iteration of the evaluator loop accounts for exactly the bytes it
consumes: with enough fuel, `c_models + c_residual` equals the length of the
scanned suffix. -/
theorem cost_breakdown_go_sum (fuel : Nat) :
    ∀ l : List Nat, l.length ≤ fuel →
      (cost_breakdown_go fuel l).1 + (cost_breakdown_go fuel l).2 = l.length := by
  induction fuel with
  | zero =>
    intro l hl
    have : l = [] := List.eq_nil_of_length_eq_zero (Nat.le_zero.mp hl)
    subst this
    simp [cost_breakdown_go]
  | succ n ih =>
    intro l hl
    match l with
    | [] => simp [cost_breakdown_go]
    | b :: rest =>
      have hrest : rest.length ≤ n := by
        simpa using Nat.succ_le_succ_iff.mp (by simpa using hl)
      simp only [cost_breakdown_go]
      split_ifs with h1 h2 h3 h4 h5 h6
      · have := ih (rest.drop 2) (by simp; omega)
        simp only [List.length_drop] at this
        simp only [List.length_cons]
        omega
      · have := ih (rest.drop 3) (by simp; omega)
        simp only [List.length_drop] at this
        simp only [List.length_cons]
        omega
      · have := ih (rest.drop 3) (by simp; omega)
        simp only [List.length_drop] at this
        simp only [List.length_cons]
        omega
      · have := ih (rest.drop (5 + rest.getD 2 0 - 1)) (by simp; omega)
        simp only [List.length_drop] at this
        simp only [List.length_cons]
        omega
      · have := ih rest hrest
        simp only [List.length_cons]
        omega
      · have := ih (rest.drop 2) (by simp; omega)
        simp only [List.length_drop] at this
        simp only [List.length_cons]
        omega
      · have := ih rest hrest
        simp only [List.length_cons]
        omega

/-- Claim C10: the evaluator's cost breakdown partitions the buffer — every
byte is counted exactly once, either inside a recognized operator encoding
(`c_models`) or as one residual byte (`c_residual`).  Consequently the total
cost equals the buffer length and the gain between two buffers is exactly
the change in length. -/
theorem cost_breakdown_partitions_buffer :
    (∀ data : List Nat,
        (calculate_cost_breakdown data).1 + (calculate_cost_breakdown data).2
          = data.length)
      ∧ (∀ data : List Nat, calculate_total_cost data = data.length)
      ∧ ∀ d1 d2 : List Nat,
          calculate_gain (calculate_total_cost d1) (calculate_total_cost d2)
            = (d1.length : Int) - (d2.length : Int) := by
  have hbreak : ∀ data : List Nat,
      (calculate_cost_breakdown data).1 + (calculate_cost_breakdown data).2
        = data.length := by
    intro data
    exact cost_breakdown_go_sum data.length data (Nat.le_refl _)
  have htotal : ∀ data : List Nat, calculate_total_cost data = data.length := by
    intro data
    exact hbreak data
  refine ⟨hbreak, htotal, ?_⟩
  intro d1 d2
  simp [calculate_gain, htotal d1, htotal d2]

/-- Claim C8 core: applying a patch whose range lies inside the buffer and
then rolling it back with the saved original bytes restores the entire
buffer byte for byte. -/
theorem rollback_apply_patch (data : List Nat) (p : Patch)
    (h1 : p.start ≤ p.stop) (h2 : p.stop ≤ data.length) :
    rollback (apply_patch data p) p (get_data_in_range data p.start p.stop)
      = data := by
  obtain ⟨s, e, nd⟩ := p
  simp only [apply_patch, rollback, get_data_in_range] at *
  have hs : s ≤ data.length := le_trans h1 h2
  have hassoc : data.take s ++ nd ++ data.drop e
      = (data.take s ++ nd) ++ data.drop e := by
    simp [List.append_assoc]
  have hlen1 : (data.take s).length = s := by
    simp [List.length_take, Nat.min_eq_left hs]
  have hlen2 : (data.take s ++ nd).length = s + nd.length := by
    simp [hlen1]
  have htake : (data.take s ++ nd ++ data.drop e).take s = data.take s := by
    rw [hassoc, List.take_append_eq_append_take]
    have hf : (data.take s ++ nd).take s = data.take s := by
      rw [List.take_append_eq_append_take, List.take_take]
      simp [hlen1, Nat.min_eq_left (Nat.le_refl s)]
    simp [hf, hlen2, Nat.sub_eq_zero_of_le (Nat.le_add_right s nd.length)]
  have hdrop : (data.take s ++ nd ++ data.drop e).drop (s + nd.length)
      = data.drop e := by
    rw [hassoc, List.drop_append_eq_append_drop]
    simp [hlen2, List.drop_eq_nil_of_le hlen2.le]
  rw [htake, hdrop]
  have hmid : data.take s ++ (data.take e).drop s = data.take e := by
    have hts : data.take s = (data.take e).take s := by
      rw [List.take_take, Nat.min_eq_left h1]
    rw [hts, List.take_append_drop]
  rw [hmid, List.take_append_drop]

/-- Claim C8: rollback fidelity.  For every buffer and every patch whose
range lies within it, `apply_patch` followed by `rollback` with the
previously captured range bytes restores the entire buffer byte for byte;
hence both rejection paths of the solver (exploit with non-positive gain,
explore with gain below `MIN_ACCEPT_GAIN`) leave the buffer unchanged. -/
theorem rollback_fidelity (data : List Nat) (p : Patch)
    (h1 : p.start ≤ p.stop) (h2 : p.stop ≤ data.length) :
    rollback (apply_patch data p) p (get_data_in_range data p.start p.stop)
        = data
      ∧ (calculate_gain (calculate_total_cost data)
            (calculate_total_cost (apply_patch data p)) ≤ 0 →
          exploit_world_step data p = data)
      ∧ (calculate_gain (calculate_total_cost data)
            (calculate_total_cost (apply_patch data p)) < MIN_ACCEPT_GAIN →
          handle_explore_patch_world data p = data) := by
  have hrestore := rollback_apply_patch data p h1 h2
  refine ⟨hrestore, ?_, ?_⟩
  · intro hg
    simp only [exploit_world_step]
    rw [if_neg (by omega)]
    exact hrestore
  · intro hg
    simp only [handle_explore_patch_world]
    rw [if_pos hg]
    exact hrestore

/-- Witness for `rollback_fidelity` at a concrete buffer and patch. -/
theorem rollback_fidelity_witness :
    rollback (apply_patch [1, 2, 3, 4, 5] ⟨1, 3, [9, 9, 9, 9]⟩)
        ⟨1, 3, [9, 9, 9, 9]⟩ (get_data_in_range [1, 2, 3, 4, 5] 1 3)
      = [1, 2, 3, 4, 5] :=
  (rollback_fidelity [1, 2, 3, 4, 5] ⟨1, 3, [9, 9, 9, 9]⟩
    (by decide) (by decide)).1

/-- Claim C7: cost monotonicity on accept.  Every buffer modification the
solver keeps lowered the evaluator's total cost: the exploit branch either
leaves the buffer unchanged (rollback) or lowers the cost strictly; the
explore branch either leaves it unchanged or lowers the cost by at least
`MIN_ACCEPT_GAIN = 3`; and each substitution performed by
`repack_compressed_data` (which replaces an occurrence of a repeated
sequence of length at least 4 by a 3-byte dictionary reference, with no
rollback) strictly lowers the cost.  No buffer modification is kept with
non-positive gain. -/
theorem cost_monotone_on_accept :
    (∀ (data : List Nat) (p : Patch), p.start ≤ p.stop → p.stop ≤ data.length →
        exploit_world_step data p = data
          ∨ calculate_total_cost (exploit_world_step data p)
              < calculate_total_cost data)
      ∧ (∀ (data : List Nat) (p : Patch), p.start ≤ p.stop → p.stop ≤ data.length →
          handle_explore_patch_world data p = data
            ∨ calculate_total_cost (handle_explore_patch_world data p) + 3
                ≤ calculate_total_cost data)
      ∧ ∀ (data : List Nat) (i seq_len word_id : Nat), 4 ≤ seq_len →
          i + seq_len ≤ data.length →
          calculate_total_cost (repack_splice data i seq_len word_id)
            < calculate_total_cost data := by
  have htotal := cost_breakdown_partitions_buffer.2.1
  refine ⟨?_, ?_, ?_⟩
  · intro data p h1 h2
    by_cases hg : 0 < calculate_gain (calculate_total_cost data)
        (calculate_total_cost (apply_patch data p))
    · right
      have : exploit_world_step data p = apply_patch data p := by
        simp only [exploit_world_step]
        rw [if_pos hg]
      rw [this]
      simp only [calculate_gain] at hg
      omega
    · left
      exact (rollback_fidelity data p h1 h2).2.1 (by omega)
  · intro data p h1 h2
    by_cases hg : calculate_gain (calculate_total_cost data)
        (calculate_total_cost (apply_patch data p)) < MIN_ACCEPT_GAIN
    · left
      exact (rollback_fidelity data p h1 h2).2.2 hg
    · right
      have : handle_explore_patch_world data p = apply_patch data p := by
        simp only [handle_explore_patch_world]
        rw [if_neg hg]
      rw [this]
      simp only [calculate_gain, MIN_ACCEPT_GAIN, not_lt] at hg
      omega
  · intro data i seq_len word_id h4 hlen
    have hi : i ≤ data.length := by omega
    have h1 : (repack_splice data i seq_len word_id).length
        = i + 3 + (data.length - (i + seq_len)) := by
      simp only [repack_splice, List.length_append, List.length_take,
        List.length_drop, List.length_cons, List.length_nil,
        Nat.min_eq_left hi]
      try omega
    rw [htotal, htotal, h1]
    omega

/-- Witness for `cost_monotone_on_accept`: the spec's RLE scenario — the
buffer `"AAAAA"` patched to `[OP_RLE, 65, 5]` is kept by the exploit branch
with cost 5 → 3, rejected by the explore branch (gain 2 < 3), and a repack
substitution of a 4-byte sequence always lowers the cost. -/
theorem cost_monotone_on_accept_witness :
    (exploit_world_step [65, 65, 65, 65, 65] ⟨0, 5, [255, 65, 5]⟩
          = [65, 65, 65, 65, 65]
        ∨ calculate_total_cost
              (exploit_world_step [65, 65, 65, 65, 65] ⟨0, 5, [255, 65, 5]⟩)
            < calculate_total_cost [65, 65, 65, 65, 65])
      ∧ (handle_explore_patch_world [65, 65, 65, 65, 65] ⟨0, 5, [255, 65, 5]⟩
            = [65, 65, 65, 65, 65]
          ∨ calculate_total_cost (handle_explore_patch_world
                [65, 65, 65, 65, 65] ⟨0, 5, [255, 65, 5]⟩) + 3
              ≤ calculate_total_cost [65, 65, 65, 65, 65])
      ∧ calculate_total_cost (repack_splice [7, 7, 7, 7, 8, 9] 0 4 1)
          < calculate_total_cost [7, 7, 7, 7, 8, 9] :=
  ⟨cost_monotone_on_accept.1 [65, 65, 65, 65, 65] ⟨0, 5, [255, 65, 5]⟩
      (by decide) (by decide),
    cost_monotone_on_accept.2.1 [65, 65, 65, 65, 65] ⟨0, 5, [255, 65, 5]⟩
      (by decide) (by decide),
    cost_monotone_on_accept.2.2 [7, 7, 7, 7, 8, 9] 0 4 1
      (by decide) (by decide)⟩

/-- `update_gain_per_quota` establishes `StatsGainInv` on any input: each
component with a positive quota counter is overwritten with the exact
ratio, and components with a zero counter impose nothing. -/
theorem update_gain_establishes_inv (s : Stats) :
    StatsGainInv s.update_gain_per_quota := by
  unfold StatsGainInv Stats.update_gain_per_quota
  by_cases h1 : 0 < s.quota_spent_exploit <;>
    by_cases h2 : 0 < s.quota_spent_explore <;>
      by_cases h3 : 0 < s.quota_spent_meta <;>
        simp [h1, h2, h3]

/-- Every `StatsOp` preserves `StatsGainInv`. -/
theorem stats_op_preserves_inv (s : Stats) (op : StatsOp)
    (h : StatsGainInv s) : StatsGainInv (s.apply_op op) := by
  cases op with
  | reset_cycle =>
    simp [Stats.apply_op, Stats.reset_cycle, StatsGainInv]
  | record_exploit q b => exact update_gain_establishes_inv _
  | record_explore q b => exact update_gain_establishes_inv _
  | record_meta q b => exact update_gain_establishes_inv _
  | record_seek q =>
    simpa [Stats.apply_op, Stats.record_seek, StatsGainInv] using h
  | update_costs m r =>
    simpa [Stats.apply_op, Stats.update_costs, StatsGainInv] using h

/-- Claim C9 (amended): after any sequence of `Stats` operations from
`Stats::new`, each `gain_per_quota` field equals
`bytes_saved / quota_spent` over the current cycle's counters whenever
`quota_spent` is positive.  When `quota_spent` is zero the field is not
zero in general: it retains its last computed value, because `reset_cycle`
clears the counters but not the derived ratios and
`update_gain_per_quota` only writes when the denominator is positive. -/
theorem stats_gain_per_quota (ops : List StatsOp) :
    StatsGainInv (Stats.run ops) := by
  have base : StatsGainInv Stats.new := by
    simp [StatsGainInv, Stats.new]
  have general : ∀ (l : List StatsOp) (s : Stats), StatsGainInv s →
      StatsGainInv (l.foldl Stats.apply_op s) := by
    intro l
    induction l with
    | nil => intro s hs; simpa using hs
    | cons op rest ih =>
      intro s hs
      exact ih (s.apply_op op) (stats_op_preserves_inv s op hs)
  exact general ops Stats.new base

/-- Witness for `stats_gain_per_quota`: after `record_exploit(2, 10)` the
exploit ratio equals the recorded `bytes_saved / quota_spent`. -/
theorem stats_gain_per_quota_witness :
    (Stats.run [StatsOp.record_exploit 2 10]).gain_per_quota_exploit
      = ratOfInt (Stats.run [StatsOp.record_exploit 2 10]).bytes_saved_exploit
          / ratOfNat (Stats.run [StatsOp.record_exploit 2 10]).quota_spent_exploit :=
  (stats_gain_per_quota [StatsOp.record_exploit 2 10]).1 (by decide)

/-- Counterexample to claim C9 as stated: after `record_exploit(2, 10)`
followed by `reset_cycle`, the exploit quota counter is 0 but
`gain_per_quota_exploit` is the stale ratio 5, not 0 as the claim
requires. -/
theorem stats_gain_stale_after_reset :
    (Stats.run [StatsOp.record_exploit 2 10, StatsOp.reset_cycle]).quota_spent_exploit
        = 0
      ∧ (Stats.run [StatsOp.record_exploit 2 10,
            StatsOp.reset_cycle]).gain_per_quota_exploit = 5 := by
  constructor
  · decide
  · decide

/-- Erasing the first entry with key `k` from a list with pairwise distinct
keys leaves no entry with key `k`.  This is the association-list fact behind
`HashMap::remove`. -/
theorem find?_eraseP_eq_none {α β : Type} [BEq β] [LawfulBEq β]
    (f : α → β) (k : β) :
    ∀ l : List α, (l.map f).Nodup →
      (l.eraseP (fun x => f x == k)).find? (fun x => f x == k) = none := by
  intro l
  induction l with
  | nil => intro _; rfl
  | cons a t ih =>
    intro hnd
    have hnd' : (t.map f).Nodup := (List.nodup_cons.mp (by simpa using hnd)).2
    by_cases ha : f a == k
    · rw [List.eraseP_cons_of_pos (by simpa using ha)]
      rw [List.find?_eq_none]
      intro x hx
      have hfa : f a ∉ t.map f := (List.nodup_cons.mp (by simpa using hnd)).1
      have hfa' : f a = k := by simpa using ha
      intro hxk
      have hxk' : f x = k := by simpa using hxk
      exact hfa (by
        rw [hfa', ← hxk']
        exact List.mem_map_of_mem f hx)
    · rw [List.eraseP_cons_of_neg (by simpa using ha)]
      rw [List.find?_cons_of_neg _ (by simpa using ha)]
      exact ih hnd'

/-- Claim C4 (amended): `PatternBank::remove` deletes any present pattern —
literal or composite — and returns its record; it returns `None` exactly
for absent ids; and for a removed `Combine(l, r)` the `(l, r)` entry is
deleted from the pair index.  There is no guard for literals: a literal id
is removed like any other. -/
theorem remove_removes_any (bank : PatternBank) (id : Nat)
    (hnodup : (bank.patterns.map (fun p => p.id)).Nodup)
    (hpairs : (bank.pair_lookup.map (fun e => e.1)).Nodup) :
    ((bank.remove id).2 = none ↔ bank.get id = none)
      ∧ ∀ p : Pattern, bank.get id = some p →
          (bank.remove id).2 = some p
            ∧ (bank.remove id).1.get id = none
            ∧ ∀ l r : Nat, p.op = .combine l r →
                (bank.remove id).1.get_pair_id l r = none := by
  constructor
  · unfold PatternBank.remove
    cases h : bank.get id <;> simp [h]
  · intro p hp
    have hremove : bank.remove id
        = ({ bank with
            patterns := bank.patterns.eraseP (fun q => q.id == id)
            pair_lookup := erase_pair_entry bank.pair_lookup p.op }, some p) := by
      unfold PatternBank.remove
      rw [hp]
    refine ⟨?_, ?_, ?_⟩
    · rw [hremove]
    · show ((bank.remove id).1.patterns.find? (fun q => q.id == id)) = none
      rw [hremove]
      exact find?_eraseP_eq_none (fun q => q.id) id bank.patterns hnodup
    · intro l r hop
      show ((bank.remove id).1.pair_lookup.find?
          (fun e => e.1 == (l, r))).map (fun e => e.2) = none
      rw [hremove]
      show ((erase_pair_entry bank.pair_lookup p.op).find?
          (fun e => e.1 == (l, r))).map (fun e => e.2) = none
      rw [hop]
      simp only [erase_pair_entry]
      rw [find?_eraseP_eq_none (fun e => e.1) (l, r) bank.pair_lookup hpairs]
      rfl

/-- Witness for `remove_removes_any` at the fresh bank and the literal id
97: the literal is removed and gone afterwards. -/
theorem remove_removes_any_witness :
    (((PatternBank.new 10).remove 97).2 = none
        ↔ (PatternBank.new 10).get 97 = none)
      ∧ ((PatternBank.new 10).remove 97).1.get 97 = none := by
  have h := remove_removes_any (PatternBank.new 10) 97 (by decide) (by decide)
  exact ⟨h.1, (h.2 (Pattern.new_literal 97 97) (by decide)).2.1⟩

/-- Counterexample to claim C4 as stated: removing the literal id 97 from a
fresh bank does not fail silently — it returns the literal's record and
shrinks the bank to 255 patterns, so the literal does not remain
present. -/
theorem remove_literal_succeeds :
    ((PatternBank.new 10).remove 97).2 = some (Pattern.new_literal 97 97)
      ∧ ((PatternBank.new 10).remove 97).1.get 97 = none
      ∧ ((PatternBank.new 10).remove 97).1.len = 255 := by
  refine ⟨by decide, by decide, by decide⟩

/-- Stable insertion preserves length. -/
theorem insert_by_strength_length (x : Nat × ℚ) (l : List (Nat × ℚ)) :
    (insert_by_strength x l).length = l.length + 1 := by
  induction l with
  | nil => rfl
  | cons y ys ih =>
    unfold insert_by_strength
    by_cases h : x.2 < y.2
    · simp [h]
    · simp [h, ih]

/-- Sorting by strength preserves length. -/
theorem sort_by_strength_length (l : List (Nat × ℚ)) :
    (sort_by_strength l).length = l.length := by
  induction l with
  | nil => rfl
  | cons x xs ih =>
    unfold sort_by_strength
    rw [insert_by_strength_length, ih]
    rfl

/-- `get_weakest` returns `min count combine_count` ids. -/
theorem get_weakest_length (bank : PatternBank) (count : Nat) :
    (bank.get_weakest count).length = min count bank.combine_count := by
  unfold PatternBank.get_weakest PatternBank.combine_count
  simp [sort_by_strength_length]

/-- The removal fold of `forget` counts one removal per processed id. -/
theorem forget_fold_count (L : List Nat) :
    ∀ acc : Builder × Nat,
      (L.foldl Builder.forget_step acc).2 = acc.2 + L.length := by
  induction L with
  | nil => intro acc; simp
  | cons hd tl ih =>
    intro acc
    rw [List.foldl_cons, ih]
    show acc.2 + 1 + tl.length = acc.2 + (tl.length + 1)
    omega

/-- The bank component of one removal step is `remove`. -/
theorem forget_step_bank (acc : Builder × Nat) (id : Nat) :
    (Builder.forget_step acc id).1.bank = (acc.1.bank.remove id).1 := rfl

/-- `remove` never makes an absent id present. -/
theorem remove_preserves_get_none (bank : PatternBank) (id2 id : Nat)
    (h : bank.get id = none) : (bank.remove id2).1.get id = none := by
  unfold PatternBank.remove
  cases hg : bank.get id2 with
  | none => exact h
  | some p =>
    show (bank.patterns.eraseP (fun q => q.id == id2)).find?
        (fun q => q.id == id) = none
    have h' : ∀ x ∈ bank.patterns, ¬ (x.id == id) = true :=
      List.find?_eq_none.mp h
    exact List.find?_eq_none.mpr
      (fun x hx => h' x ((List.eraseP_sublist bank.patterns).subset hx))

/-- `remove` preserves distinctness of the stored ids. -/
theorem remove_preserves_nodup (bank : PatternBank) (id2 : Nat)
    (h : (bank.patterns.map (fun p => p.id)).Nodup) :
    ((bank.remove id2).1.patterns.map (fun p => p.id)).Nodup := by
  unfold PatternBank.remove
  cases hg : bank.get id2 with
  | none => exact h
  | some p =>
    show ((bank.patterns.eraseP (fun q => q.id == id2)).map
        (fun p => p.id)).Nodup
    exact h.sublist (List.Sublist.map _ (List.eraseP_sublist bank.patterns))

/-- After `remove id`, the id is gone (given distinct ids). -/
theorem remove_get_self_none (bank : PatternBank) (id : Nat)
    (h : (bank.patterns.map (fun p => p.id)).Nodup) :
    (bank.remove id).1.get id = none := by
  unfold PatternBank.remove
  cases hg : bank.get id with
  | none => exact hg
  | some p =>
    show (bank.patterns.eraseP (fun q => q.id == id)).find?
        (fun q => q.id == id) = none
    exact find?_eraseP_eq_none (fun q => q.id) id bank.patterns h

/-- Absence of an id survives the whole removal fold. -/
theorem forget_fold_preserves_none (L : List Nat) :
    ∀ (acc : Builder × Nat) (id : Nat), acc.1.bank.get id = none →
      (L.foldl Builder.forget_step acc).1.bank.get id = none := by
  induction L with
  | nil => intro acc id h; simpa using h
  | cons hd tl ih =>
    intro acc id h
    rw [List.foldl_cons]
    exact ih _ id (by
      rw [forget_step_bank]
      exact remove_preserves_get_none _ hd id h)

/-- Distinctness of ids survives the whole removal fold. -/
theorem forget_fold_preserves_nodup (L : List Nat) :
    ∀ acc : Builder × Nat,
      (acc.1.bank.patterns.map (fun p => p.id)).Nodup →
      ((L.foldl Builder.forget_step acc).1.bank.patterns.map
        (fun p => p.id)).Nodup := by
  induction L with
  | nil => intro acc h; simpa using h
  | cons hd tl ih =>
    intro acc h
    rw [List.foldl_cons]
    exact ih _ (by
      rw [forget_step_bank]
      exact remove_preserves_nodup _ hd h)

/-- Every id processed by the removal fold is absent afterwards. -/
theorem forget_fold_removes_all (L : List Nat) :
    ∀ acc : Builder × Nat,
      (acc.1.bank.patterns.map (fun p => p.id)).Nodup →
      ∀ id ∈ L, (L.foldl Builder.forget_step acc).1.bank.get id = none := by
  induction L with
  | nil => intro acc _ id h; cases h
  | cons hd tl ih =>
    intro acc hnd id hmem
    rw [List.foldl_cons]
    rcases List.mem_cons.mp hmem with heq | htl
    · subst heq
      apply forget_fold_preserves_none
      rw [forget_step_bank]
      exact remove_get_self_none _ id hnd
    · exact ih _ (by
        rw [forget_step_bank]
        exact remove_preserves_nodup _ hd hnd) id htl

/-- How many patterns `forget(0)` removes, as a function of the state. -/
theorem forget_zero_count (b : Builder) :
    (b.forget 0).2
      = if b.bank.capacity * 80 / 100 < b.bank.combine_count then
          b.bank.combine_count * 10 / 100
        else 0 := by
  unfold Builder.forget
  by_cases hfire : b.bank.capacity * 80 / 100 < b.bank.combine_count
  · by_cases hzero : b.bank.combine_count * 10 / 100 = 0
    · simp [hfire, hzero]
    · simp only [Nat.lt_irrefl, if_false, if_pos hfire, if_neg hzero]
      rw [forget_fold_count, get_weakest_length]
      have hle : b.bank.combine_count * 10 / 100 ≤ b.bank.combine_count := by
        calc b.bank.combine_count * 10 / 100
            ≤ b.bank.combine_count * 10 / 10 :=
              Nat.div_le_div_left (by norm_num) (by norm_num)
          _ = b.bank.combine_count := Nat.mul_div_cancel _ (by norm_num)
      simp [Nat.min_eq_left hle, hfire]
  · simp [hfire]

/-- Claim C3 (amended): `Builder::forget(0)` removes patterns exactly when
the composite count exceeds 80% of the stored `bank.capacity` — which is
the configured composite capacity plus the 256 literals, not the composite
capacity alone — and in that case it removes the weakest
`combine_count * 10 / 100` composites (by lowest strength): that many
removals are performed and every id selected by `get_weakest` is gone
afterwards. -/
theorem forget_trigger (b : Builder)
    (hcap : 256 ≤ b.bank.capacity)
    (hnodup : (b.bank.patterns.map (fun p => p.id)).Nodup) :
    (0 < (b.forget 0).2
        ↔ b.bank.capacity * 80 / 100 < b.bank.combine_count)
      ∧ (b.forget 0).2
          = (if b.bank.capacity * 80 / 100 < b.bank.combine_count then
              b.bank.combine_count * 10 / 100
            else 0)
      ∧ ∀ id ∈ b.bank.get_weakest (b.bank.combine_count * 10 / 100),
          b.bank.capacity * 80 / 100 < b.bank.combine_count →
            (b.forget 0).1.bank.get id = none := by
  have hcount := forget_zero_count b
  have hthreshold : 204 ≤ b.bank.capacity * 80 / 100 := by
    calc (204 : Nat) = 256 * 80 / 100 := by norm_num
      _ ≤ b.bank.capacity * 80 / 100 :=
        Nat.div_le_div_right (Nat.mul_le_mul_right 80 hcap)
  refine ⟨?_, hcount, ?_⟩
  · rw [hcount]
    by_cases hfire : b.bank.capacity * 80 / 100 < b.bank.combine_count
    · simp only [hfire, if_true, iff_true]
      have h205 : 205 ≤ b.bank.combine_count := by omega
      have : 20 ≤ b.bank.combine_count * 10 / 100 := by
        calc (20 : Nat) = 205 * 10 / 100 := by norm_num
          _ ≤ b.bank.combine_count * 10 / 100 :=
            Nat.div_le_div_right (Nat.mul_le_mul_right 10 h205)
      omega
    · simp [hfire]
  · intro id hmem hfire
    have hzero : b.bank.combine_count * 10 / 100 ≠ 0 := by
      have h205 : 205 ≤ b.bank.combine_count := by omega
      have : 20 ≤ b.bank.combine_count * 10 / 100 := by
        calc (20 : Nat) = 205 * 10 / 100 := by norm_num
          _ ≤ b.bank.combine_count * 10 / 100 :=
            Nat.div_le_div_right (Nat.mul_le_mul_right 10 h205)
      omega
    have hforget : (b.forget 0).1
        = ((b.bank.get_weakest (b.bank.combine_count * 10 / 100)).foldl
            Builder.forget_step (b, 0)).1 := by
      unfold Builder.forget
      simp only [Nat.lt_irrefl, if_false, if_pos hfire, if_neg hzero]
    rw [hforget]
    exact forget_fold_removes_all _ (b, 0) hnodup id hmem

/-- Witness for `forget_trigger` at a freshly built `Builder` (no
composites): `forget(0)` removes nothing, matching the threshold test. -/
theorem forget_trigger_witness :
    0 < ((Builder.new 10).forget 0).2
      ↔ (Builder.new 10).bank.capacity * 80 / 100
          < (Builder.new 10).bank.combine_count :=
  (forget_trigger (Builder.new 10) (by decide) (by decide)).1

/-- Counterexample to claim C3 as stated: with composite capacity 100 and 81
composites, the composite count exceeds 80% of the composite capacity
(81 > 80), yet `forget(0)` removes nothing, because the source compares
against 80% of `bank.capacity = 100 + 256`, which counts the literals. -/
theorem forget_threshold_counterexample :
    builder_81_combines.bank.combine_count = 81
      ∧ 100 * 80 / 100 < builder_81_combines.bank.combine_count
      ∧ (builder_81_combines.forget 0).2 = 0 := by
  refine ⟨by decide, by decide, by decide⟩

/-! ### Complexity monotonicity (claim C6) -/

/-- In a bank with distinct ids, looking up the id of a member returns that
member. -/
theorem find?_eq_of_mem_nodup {α β : Type} [BEq β] [LawfulBEq β] (f : α → β) :
    ∀ l : List α, (l.map f).Nodup → ∀ q ∈ l,
      l.find? (fun x => f x == f q) = some q := by
  intro l
  induction l with
  | nil => intro _ q hq; cases hq
  | cons a t ih =>
    intro hnd q hq
    have hnd' : (t.map f).Nodup := (List.nodup_cons.mp (by simpa using hnd)).2
    have hfa : f a ∉ t.map f := (List.nodup_cons.mp (by simpa using hnd)).1
    rcases List.mem_cons.mp hq with heq | hqt
    · subst heq
      exact List.find?_cons_of_pos _ (by simp)
    · have hne : ¬((fun x => f x == f q) a = true) := by
        simp only [beq_iff_eq]
        intro hcontra
        exact hfa (hcontra ▸ List.mem_map_of_mem f hqt)
      have step : List.find? (fun x => f x == f q) (a :: t)
          = List.find? (fun x => f x == f q) t :=
        List.find?_cons_of_neg _ hne
      rw [step]
      exact ih hnd' q hqt

/-- `get` on a member of a nodup bank returns that member. -/
theorem get_of_mem_nodup (bank : PatternBank) (q : Pattern)
    (hnd : (bank.patterns.map (fun p => p.id)).Nodup)
    (hq : q ∈ bank.patterns) : bank.get q.id = some q := by
  show bank.patterns.find? (fun p => p.id == q.id) = some q
  exact find?_eq_of_mem_nodup (fun p => p.id) bank.patterns hnd q hq

/-- `touch` preserves `id`, `op` and `complexity` of every entry. -/
theorem touch_fields (id : Nat) (s : ℚ) (lu uc : Nat) (p : Pattern) :
    ((if p.id = id then
        { p with strength := s, last_used := lu, usage_count := uc }
      else p) : Pattern).id = p.id
    ∧ ((if p.id = id then
        { p with strength := s, last_used := lu, usage_count := uc }
      else p) : Pattern).op = p.op
    ∧ ((if p.id = id then
        { p with strength := s, last_used := lu, usage_count := uc }
      else p) : Pattern).complexity = p.complexity := by
  by_cases h : p.id = id <;> simp [h]

/-- `BankWF` is preserved by `touch`. -/
theorem touch_preserves_wf (bank : PatternBank) (id : Nat) (s : ℚ)
    (lu uc : Nat) (h : BankWF bank) : BankWF (bank.touch id s lu uc) := by
  have hmap : (bank.touch id s lu uc).patterns.map (fun p => p.id)
      = bank.patterns.map (fun p => p.id) := by
    unfold PatternBank.touch
    rw [List.map_map]
    exact List.map_congr_left (fun p _ => (touch_fields id s lu uc p).1)
  refine ⟨?_, ?_, ?_, ?_⟩
  · intro p hp
    obtain ⟨q, hq, rfl⟩ := List.mem_map.mp hp
    rw [(touch_fields id s lu uc q).1]
    exact h.ids_lt q hq
  · rw [hmap]; exact h.nodup
  · intro p hp
    obtain ⟨q, hq, rfl⟩ := List.mem_map.mp hp
    rw [(touch_fields id s lu uc q).2.2]
    exact h.cx_le q hq
  · intro p hp l r hop q hq hchild hlt
    obtain ⟨p0, hp0, rfl⟩ := List.mem_map.mp hp
    obtain ⟨q0, hq0, rfl⟩ := List.mem_map.mp hq
    rw [(touch_fields id s lu uc q0).2.2, (touch_fields id s lu uc p0).2.2]
    refine h.inv p0 hp0 l r ((touch_fields id s lu uc p0).2.1 ▸ hop) q0 hq0 ?_ ?_
    · rw [← (touch_fields id s lu uc q0).1]; exact hchild
    · rw [← (touch_fields id s lu uc q0).1, ← (touch_fields id s lu uc p0).1]
      exact hlt

/-- `BankWF` is preserved by `remove`. -/
theorem remove_preserves_wf (bank : PatternBank) (id : Nat)
    (h : BankWF bank) : BankWF (bank.remove id).1 := by
  have hsub : (bank.remove id).1.patterns.Sublist bank.patterns := by
    unfold PatternBank.remove
    cases hg : bank.get id with
    | none => exact List.Sublist.refl _
    | some p => exact List.eraseP_sublist bank.patterns
  have hnext : (bank.remove id).1.next_id = bank.next_id := by
    unfold PatternBank.remove
    cases hg : bank.get id <;> rfl
  refine ⟨?_, ?_, ?_, ?_⟩
  · intro p hp
    rw [hnext]
    exact h.ids_lt p (hsub.subset hp)
  · exact h.nodup.sublist (List.Sublist.map _ hsub)
  · intro p hp
    exact h.cx_le p (hsub.subset hp)
  · intro p hp l r hop q hq hchild hlt
    exact h.inv p (hsub.subset hp) l r hop q (hsub.subset hq) hchild hlt

/-- `BankWF` is preserved by `create_combine`. -/
theorem create_combine_preserves_wf (bank : PatternBank) (l r c : Nat)
    (h : BankWF bank) : BankWF (bank.create_combine l r c).1 := by
  unfold PatternBank.create_combine
  cases hp : bank.get_pair_id l r with
  | some id => exact h
  | none =>
    by_cases hcap : bank.capacity ≤ bank.patterns.length
    · simp only [if_pos hcap]
      exact h
    · simp only [if_neg hcap]
      set newp := Pattern.new_combine bank.next_id l r
        (bank.complexity_of l) (bank.complexity_of r) c with hnewp
      have hnewp_id : newp.id = bank.next_id := rfl
      have hnewp_op : newp.op = .combine l r := rfl
      have hnewp_cx : newp.complexity
          = min (max (bank.complexity_of l) (bank.complexity_of r) + 1) 255 :=
        rfl
      refine ⟨?_, ?_, ?_, ?_⟩
      · intro p hq
        rcases List.mem_cons.mp hq with heq | hmem
        · subst heq
          show bank.next_id < bank.next_id + 1
          omega
        · show p.id < bank.next_id + 1
          have := h.ids_lt p hmem
          omega
      · show ((newp :: bank.patterns).map (fun p => p.id)).Nodup
        rw [List.map_cons, List.nodup_cons]
        constructor
        · intro hcontra
          obtain ⟨q, hq, hqid⟩ := List.mem_map.mp hcontra
          have := h.ids_lt q hq
          rw [hnewp_id] at hqid
          omega
        · exact h.nodup
      · intro p hq
        rcases List.mem_cons.mp hq with heq | hmem
        · subst heq
          rw [hnewp_cx]
          exact Nat.min_le_right _ _
        · exact h.cx_le p hmem
      · intro p hq lp rp hop q hq2 hchild hlt
        rcases List.mem_cons.mp hq with heq | hmem
        · -- the freshly created pattern
          subst heq
          have hlr : lp = l ∧ rp = r := by
            rw [hnewp_op] at hop
            exact ⟨(Operator.combine.injEq _ _ _ _ ▸ hop).1.symm,
              (Operator.combine.injEq _ _ _ _ ▸ hop).2.symm⟩
          rcases List.mem_cons.mp hq2 with heq2 | hmem2
          · subst heq2
            exact absurd hlt (Nat.lt_irrefl _)
          · -- q is an old member that is a child of the new pattern
            by_cases hq255 : q.complexity = 255
            · exact Or.inr hq255
            · left
              have hq254 : q.complexity ≤ 254 := by
                have := h.cx_le q hmem2
                omega
              have hqget : bank.get q.id = some q :=
                get_of_mem_nodup bank q h.nodup hmem2
              have hqcx : bank.complexity_of q.id = q.complexity := by
                unfold PatternBank.complexity_of
                rw [hqget]
                rfl
              rw [hnewp_cx]
              rcases hchild with hql | hqr
              · have hthis : bank.complexity_of l = q.complexity := by
                  rw [← hlr.1, ← hql, hqcx]
                have h1 : q.complexity + 1
                    ≤ max (bank.complexity_of l) (bank.complexity_of r) + 1 :=
                  Nat.succ_le_succ (hthis ▸ Nat.le_max_left _ _)
                have h2 : q.complexity + 1 ≤ 255 := by omega
                exact Nat.lt_of_lt_of_le (Nat.lt_succ_self _)
                  (Nat.le_min.mpr ⟨h1, h2⟩)
              · have hthis : bank.complexity_of r = q.complexity := by
                  rw [← hlr.2, ← hqr, hqcx]
                have h1 : q.complexity + 1
                    ≤ max (bank.complexity_of l) (bank.complexity_of r) + 1 :=
                  Nat.succ_le_succ (hthis ▸ Nat.le_max_right _ _)
                have h2 : q.complexity + 1 ≤ 255 := by omega
                exact Nat.lt_of_lt_of_le (Nat.lt_succ_self _)
                  (Nat.le_min.mpr ⟨h1, h2⟩)
        · -- an old combine pattern
          rcases List.mem_cons.mp hq2 with heq2 | hmem2
          · subst heq2
            rw [hnewp_id] at hlt
            have := h.ids_lt p hmem
            omega
          · exact h.inv p hmem lp rp hop q hmem2 hchild hlt

/-- Every `BankOp` preserves `BankWF`. -/
theorem apply_op_preserves_wf (bank : PatternBank) (op : BankOp)
    (h : BankWF bank) : BankWF (bank.apply_op op) := by
  cases op with
  | create_combine l r c => exact create_combine_preserves_wf bank l r c h
  | remove id => exact remove_preserves_wf bank id h
  | touch id s lu uc => exact touch_preserves_wf bank id s lu uc h

/-- The fresh bank of 256 literals is well formed. -/
theorem new_bank_wf (capacity : Nat) : BankWF (PatternBank.new capacity) := by
  have hpat : (PatternBank.new capacity).patterns
      = (List.range 256).map (fun b => Pattern.new_literal b b) := rfl
  refine ⟨?_, ?_, ?_, ?_⟩
  · intro p hp
    rw [hpat] at hp
    obtain ⟨b, hb, rfl⟩ := List.mem_map.mp hp
    show b < 256
    exact List.mem_range.mp hb
  · rw [hpat, List.map_map]
    have : ((fun p => p.id) ∘ fun b => Pattern.new_literal b b)
        = (fun b => b) := rfl
    rw [this]
    simpa using List.nodup_range 256
  · intro p hp
    rw [hpat] at hp
    obtain ⟨b, _, rfl⟩ := List.mem_map.mp hp
    show (0 : Nat) ≤ 255
    omega
  · intro p hp l r hop
    rw [hpat] at hp
    obtain ⟨b, _, rfl⟩ := List.mem_map.mp hp
    cases hop

/-- All banks reachable by operation sequences are well formed. -/
theorem run_wf (capacity : Nat) (ops : List BankOp) :
    BankWF (PatternBank.run capacity ops) := by
  have general : ∀ (l : List BankOp) (bank : PatternBank), BankWF bank →
      BankWF (l.foldl PatternBank.apply_op bank) := by
    intro l
    induction l with
    | nil => intro bank h; simpa using h
    | cons op rest ih =>
      intro bank h
      exact ih (bank.apply_op op) (apply_op_preserves_wf bank op h)
  exact general ops (PatternBank.new capacity) (new_bank_wf capacity)

/-- Claim C6 (amended): across every sequence of bank operations, every
`Combine` pattern's complexity strictly exceeds the complexity of each of
its children that is present in the bank with a smaller id (allocated
before it), except when the child's complexity is the `u8` saturation
value 255.  Creation computes `max(left, right).saturating_add(1)` on a
`u8` and complexity is immutable afterwards. -/
theorem complexity_monotone (capacity : Nat) (ops : List BankOp) :
    ComplexityInv (PatternBank.run capacity ops) :=
  (run_wf capacity ops).inv

/-- Witness for `complexity_monotone`: in the bank obtained by one
`create_combine(0, 1)` the literal child 0 has smaller complexity than the
new composite. -/
theorem complexity_monotone_witness :
    (Pattern.new_literal 0 0).complexity
        < (Pattern.new_combine 256 0 1 0 0 0).complexity
      ∨ (Pattern.new_literal 0 0).complexity = 255 :=
  complexity_monotone 10 [BankOp.create_combine 0 1 0]
    (Pattern.new_combine 256 0 1 0 0 0) (by decide) 0 1 rfl
    (Pattern.new_literal 0 0) (by decide) (Or.inl rfl) (by decide)

/-- Counterexample to claim C6 as stated: in `forward_ref_bank`, pattern 256
is `Combine(257, 0)` with complexity 1, and its child 257 is present with
complexity 1 as well — not strictly smaller.  (A second, independent
violation exists at the saturation bound: a child of complexity 255 yields
a parent of complexity 255, see `new_combine_saturates`.) -/
theorem strict_complexity_fails : ¬ StrictComplexityClaim forward_ref_bank := by
  intro h
  have hp : Pattern.new_combine 256 257 0 0 0 0 ∈ forward_ref_bank.patterns := by
    decide
  have hq : Pattern.new_combine 257 0 1 0 0 0 ∈ forward_ref_bank.patterns := by
    decide
  have hviol := h _ hp 257 0 rfl _ hq (Or.inl rfl)
  exact absurd hviol (by decide)

/-- The saturation exception is forced by `new_combine` itself: a child of
complexity 255 produces a parent of complexity 255, not 256. -/
theorem new_combine_saturates (id l r cycle : Nat) :
    (Pattern.new_combine id l r 255 0 cycle).complexity = 255 := rfl

/-! ### Forget and the byte-preservation invariant (claim C2) -/

/-- Verification of the claim C2 failure on the code: on
`nested_child_builder`, `forget(1)` removes the weakest composite `P256`,
expands only its direct stream occurrences (there are none — `P256` occurs
only as a child of the stream token `P257`), and afterwards the stream
decodes to the empty byte string instead of `[97, 98, 97, 98]`: the decoded
bytes are not preserved. -/
theorem forget_loses_bytes :
    nested_child_builder.decode_stream = [97, 98, 97, 98]
      ∧ (nested_child_builder.forget 1).2 = 1
      ∧ (nested_child_builder.forget 1).1.bank.get 256 = none
      ∧ (nested_child_builder.forget 1).1.token_stream = [257]
      ∧ (nested_child_builder.forget 1).1.decode_stream = [] := by
  refine ⟨by decide, by decide, by decide, by decide, by decide⟩

/-- For contrast: when the dying composite occurs directly in the stream,
the expansion step of `forget` does preserve the decoded bytes — the hole
is specifically in references from other patterns. -/
theorem forget_expands_direct_occurrences :
    ({ Builder.new 10 with
        bank := nested_bank
        token_stream := [256] } : Builder).decode_stream = [97, 98]
      ∧ (({ Builder.new 10 with
          bank := nested_bank
          token_stream := [256] } : Builder).forget 1).1.decode_stream
        = [97, 98] := by
  refine ⟨by decide, by decide⟩

/-! ### Decode stability lemmas -/

/-- A bank lookup returns a pattern stored under its own id. -/
theorem get_id_eq (bank : PatternBank) (id : Nat) (p : Pattern)
    (h : bank.get id = some p) : p.id = id := by
  have := List.find?_some h
  simpa using this

/-- A bank lookup returns a member of the pattern list. -/
theorem get_mem (bank : PatternBank) (id : Nat) (p : Pattern)
    (h : bank.get id = some p) : p ∈ bank.patterns :=
  List.mem_of_find?_eq_some h

/-- In an ordered bank the decoder's answer does not depend on the fuel, as
long as the fuel exceeds the id being decoded. -/
theorem decodeF_stable (bank : PatternBank) (hord : OrderedBank bank) :
    ∀ (id f1 f2 : Nat), id < f1 → id < f2 →
      bank.decodeF f1 id = bank.decodeF f2 id := by
  intro id
  induction id using Nat.strong_induction_on with
  | _ id ih =>
    intro f1 f2 h1 h2
    obtain ⟨a, rfl⟩ : ∃ a, f1 = a + 1 := ⟨f1 - 1, by omega⟩
    obtain ⟨b, rfl⟩ : ∃ b, f2 = b + 1 := ⟨f2 - 1, by omega⟩
    cases hget : bank.get id with
    | none => simp only [PatternBank.decodeF, hget]
    | some p =>
      cases hop : p.op with
      | literal byte => simp only [PatternBank.decodeF, hget, hop]
      | combine l r =>
        have hchild := hord p (get_mem bank id p hget) l r hop
        have hid := get_id_eq bank id p hget
        have hl : l < id := by omega
        have hr : r < id := by omega
        simp only [PatternBank.decodeF, hget, hop]
        rw [ih l hl a b (by omega) (by omega), ih r hr a b (by omega) (by omega)]

/-- With enough fuel, `decodeF` computes `decode`. -/
theorem decodeF_eq_decode (bank : PatternBank) (hord : OrderedBank bank)
    (id fuel : Nat) (h : id < fuel) :
    bank.decodeF fuel id = bank.decode id :=
  decodeF_stable bank hord id fuel (id + 1) h (Nat.lt_succ_self id)

/-- `get` through an id-preserving entry map. -/
theorem get_map (bank : PatternBank) (f : Pattern → Pattern)
    (hid : ∀ p, (f p).id = p.id) (id : Nat) :
    ({ bank with patterns := bank.patterns.map f } : PatternBank).get id
      = (bank.get id).map f := by
  show (bank.patterns.map f).find? (fun p => p.id == id)
    = (bank.patterns.find? (fun p => p.id == id)).map f
  induction bank.patterns with
  | nil => rfl
  | cons a t ih =>
    by_cases ha : a.id = id
    · rw [List.map_cons,
        List.find?_cons_of_pos _ (by simp [hid, ha]),
        List.find?_cons_of_pos _ (by simp [ha])]
      rfl
    · rw [List.map_cons,
        List.find?_cons_of_neg _ (by simp [hid, ha]),
        List.find?_cons_of_neg _ (by simp [ha])]
      exact ih

/-- Decoding ignores entry maps that preserve id and operator (such as
`strengthen`, `weaken` and the decay pass, which only write the mutable
counters). -/
theorem decodeF_map (bank : PatternBank) (f : Pattern → Pattern)
    (hid : ∀ p, (f p).id = p.id) (hop : ∀ p, (f p).op = p.op) :
    ∀ (fuel id : Nat),
      ({ bank with patterns := bank.patterns.map f } : PatternBank).decodeF fuel id
        = bank.decodeF fuel id := by
  intro fuel
  induction fuel with
  | zero => intro id; rfl
  | succ n ih =>
    intro id
    have hg := get_map bank f hid id
    cases hget : bank.get id with
    | none =>
      rw [hget] at hg
      simp only [PatternBank.decodeF, hg, hget]
      rfl
    | some p =>
      rw [hget] at hg
      cases hop2 : p.op with
      | literal b =>
        simp only [PatternBank.decodeF, hg, hget]
        show (match (f p).op with
            | Operator.literal b => [b]
            | Operator.combine l r => _ ++ _)
          = _
        rw [hop p, hop2]
      | combine l r =>
        simp only [PatternBank.decodeF, hg, hget]
        show (match (f p).op with
            | Operator.literal b => [b]
            | Operator.combine l r =>
              ({ bank with patterns := bank.patterns.map f } : PatternBank).decodeF n l
                ++ ({ bank with patterns := bank.patterns.map f } : PatternBank).decodeF n r)
          = _
        rw [hop p, hop2]
        show ({ bank with patterns := bank.patterns.map f } : PatternBank).decodeF n l
            ++ ({ bank with patterns := bank.patterns.map f } : PatternBank).decodeF n r
          = _
        rw [ih l, ih r]

/-- Decoding below a bound is unchanged when the bank changes only at ids
at or above the bound, provided children precede parents in the old bank. -/
theorem decodeF_grow (bank bank2 : PatternBank) (n : Nat)
    (hsame : ∀ i, i < n → bank2.get i = bank.get i)
    (hord : OrderedBank bank) :
    ∀ (fuel id : Nat), id < n →
      bank2.decodeF fuel id = bank.decodeF fuel id := by
  intro fuel
  induction fuel with
  | zero => intro id _; rfl
  | succ m ih =>
    intro id hid
    have hsame2 := hsame id hid
    cases hget : bank.get id with
    | none =>
      rw [hget] at hsame2
      simp only [PatternBank.decodeF, hget, hsame2]
    | some p =>
      rw [hget] at hsame2
      cases hop : p.op with
      | literal b => simp only [PatternBank.decodeF, hget, hsame2, hop]
      | combine l r =>
        have hchild := hord p (get_mem bank id p hget) l r hop
        have hpid := get_id_eq bank id p hget
        simp only [PatternBank.decodeF, hget, hsame2, hop]
        rw [ih l (by omega), ih r (by omega)]

/-! ### Invariants of the live cycle -/

theorem bank_evolves_refl (bank : PatternBank) : BankEvolves bank bank :=
  ⟨rfl, Nat.le_refl _, fun _ _ _ => rfl, fun _ h => h⟩

theorem bank_evolves_trans {b1 b2 b3 : PatternBank}
    (h12 : BankEvolves b1 b2) (h23 : BankEvolves b2 b3) : BankEvolves b1 b3 := by
  obtain ⟨hc1, hn1, hd1, hs1⟩ := h12
  obtain ⟨hc2, hn2, hd2, hs2⟩ := h23
  exact ⟨hc2.trans hc1, hn1.trans hn2,
    fun fuel id hid => (hd2 fuel id (by omega)).trans (hd1 fuel id hid),
    fun t ht => hs2 t (hs1 t ht)⟩

/-- Filtering commutes with a predicate-preserving map, at the level of
lengths. -/
theorem filter_length_map_of_pred (f : Pattern → Pattern)
    (q : Pattern → Bool) (hq : ∀ p, q (f p) = q p) :
    ∀ l : List Pattern, ((l.map f).filter q).length = (l.filter q).length := by
  intro l
  induction l with
  | nil => rfl
  | cons a t ih =>
    rw [List.map_cons]
    by_cases ha : q a = true
    · rw [List.filter_cons_of_pos (by rw [hq]; exact ha),
        List.filter_cons_of_pos ha]
      simp [ih]
    · rw [List.filter_cons_of_neg (by rw [hq]; simpa using ha),
        List.filter_cons_of_neg (by simpa using ha)]
      exact ih

/-- An id- and op-preserving entry map (strengthen, weaken, decay) keeps a
bank well formed. -/
theorem map_preserves_live_wf (bank : PatternBank) (f : Pattern → Pattern)
    (hid : ∀ p, (f p).id = p.id) (hop : ∀ p, (f p).op = p.op)
    (h : BankLiveWF bank) :
    BankLiveWF { bank with patterns := bank.patterns.map f } := by
  have hmapid : (bank.patterns.map f).map (fun p => p.id)
      = bank.patterns.map (fun p => p.id) := by
    rw [List.map_map]
    exact List.map_congr_left (fun p _ => hid p)
  refine ⟨?_, ?_, ?_, ?_, ?_, ?_, ?_, ?_⟩
  · show ((bank.patterns.map f).map (fun p => p.id)).Nodup
    rw [hmapid]; exact h.nodup
  · intro p hp
    obtain ⟨q, hq, rfl⟩ := List.mem_map.mp hp
    show (f q).id < bank.next_id
    rw [hid]; exact h.ids_lt q hq
  · intro p hp l r hpop
    obtain ⟨q, hq, rfl⟩ := List.mem_map.mp hp
    rw [hid]
    exact h.ordered q hq l r (by rw [← hop q]; exact hpop)
  · intro e he
    obtain ⟨p, hp, hpid, hpop⟩ := h.pair_consistent e he
    exact ⟨f p, List.mem_map_of_mem f hp, by rw [hid]; exact hpid,
      by rw [hop]; exact hpop⟩
  · intro byte hbyte
    obtain ⟨p, hp, hpop⟩ := h.literal_at byte hbyte
    refine ⟨f p, ?_, by rw [hop]; exact hpop⟩
    rw [get_map bank f hid byte, hp]
    rfl
  · show (bank.patterns.map f).length ≤ bank.capacity
    rw [List.length_map]; exact h.len_le
  · show ((bank.patterns.map f).filter (fun p => p.is_literal)).length = 256
    rw [filter_length_map_of_pred f _ (fun p => by
      show (f p).is_literal = p.is_literal
      unfold Pattern.is_literal
      rw [hop])]
    exact h.lit_count
  · exact h.cap_ge

/-- Id- and op-preserving entry maps are bank evolutions. -/
theorem map_evolves (bank : PatternBank) (f : Pattern → Pattern)
    (hid : ∀ p, (f p).id = p.id) (hop : ∀ p, (f p).op = p.op) :
    BankEvolves bank { bank with patterns := bank.patterns.map f } := by
  refine ⟨rfl, Nat.le_refl _, fun fuel id _ => decodeF_map bank f hid hop fuel id, ?_⟩
  intro t ht
  rw [get_map bank f hid t]
  cases hg : bank.get t with
  | none => rw [hg] at ht; cases ht
  | some p => rfl

/-- Below the allocator, `create_combine` does not change lookups. -/
theorem create_get_below (bank : PatternBank) (l r c i : Nat)
    (hi : i < bank.next_id) :
    (bank.create_combine l r c).1.get i = bank.get i := by
  unfold PatternBank.create_combine
  cases hp : bank.get_pair_id l r with
  | some id => rfl
  | none =>
    by_cases hcap : bank.capacity ≤ bank.patterns.length
    · simp only [if_pos hcap]
    · simp only [if_neg hcap]
      show (Pattern.new_combine bank.next_id l r _ _ c :: bank.patterns).find?
          (fun p => p.id == i) = bank.patterns.find? (fun p => p.id == i)
      exact List.find?_cons_of_neg _ (by
        show ¬((bank.next_id : Nat) == i) = true
        simp only [beq_iff_eq]
        omega)

/-- `create_combine` keeps the capacity and never decreases the allocator. -/
theorem create_capacity_next (bank : PatternBank) (l r c : Nat) :
    (bank.create_combine l r c).1.capacity = bank.capacity
      ∧ bank.next_id ≤ (bank.create_combine l r c).1.next_id := by
  unfold PatternBank.create_combine
  cases hp : bank.get_pair_id l r with
  | some id => exact ⟨rfl, Nat.le_refl _⟩
  | none =>
    by_cases hcap : bank.capacity ≤ bank.patterns.length
    · rw [if_pos hcap]
      exact ⟨rfl, Nat.le_refl _⟩
    · rw [if_neg hcap]
      exact ⟨rfl, Nat.le_succ _⟩

/-- `create_combine` is a bank evolution of any well-formed bank. -/
theorem create_evolves (bank : PatternBank) (l r c : Nat)
    (h : BankLiveWF bank) :
    BankEvolves bank (bank.create_combine l r c).1 := by
  refine ⟨(create_capacity_next bank l r c).1,
    (create_capacity_next bank l r c).2, ?_, ?_⟩
  · intro fuel id hid
    exact decodeF_grow bank (bank.create_combine l r c).1 bank.next_id
      (fun i hi => create_get_below bank l r c i hi) h.ordered fuel id hid
  · intro t ht
    cases hg : bank.get t with
    | none => rw [hg] at ht; cases ht
    | some p =>
      have hmem := get_mem bank t p hg
      have hlt : t < bank.next_id := by
        have := h.ids_lt p hmem
        have := get_id_eq bank t p hg
        omega
      rw [create_get_below bank l r c t hlt, hg]
      rfl

/-- `create_combine` with both children resolvable keeps a bank well
formed. -/
theorem create_preserves_live_wf (bank : PatternBank) (l r c : Nat)
    (hl : (bank.get l).isSome) (hr : (bank.get r).isSome)
    (h : BankLiveWF bank) :
    BankLiveWF (bank.create_combine l r c).1 := by
  obtain ⟨pl, hpl⟩ := Option.isSome_iff_exists.mp hl
  obtain ⟨pr, hpr⟩ := Option.isSome_iff_exists.mp hr
  have hpl_lt : l < bank.next_id := by
    have := h.ids_lt pl (get_mem bank l pl hpl)
    have := get_id_eq bank l pl hpl
    omega
  have hpr_lt : r < bank.next_id := by
    have := h.ids_lt pr (get_mem bank r pr hpr)
    have := get_id_eq bank r pr hpr
    omega
  unfold PatternBank.create_combine
  cases hp : bank.get_pair_id l r with
  | some id => exact h
  | none =>
    by_cases hcap : bank.capacity ≤ bank.patterns.length
    · simp only [if_pos hcap]; exact h
    · simp only [if_neg hcap]
      set newp := Pattern.new_combine bank.next_id l r
        (bank.complexity_of l) (bank.complexity_of r) c with hnewp
      refine ⟨?_, ?_, ?_, ?_, ?_, ?_, ?_, ?_⟩
      · show ((newp :: bank.patterns).map (fun p => p.id)).Nodup
        rw [List.map_cons, List.nodup_cons]
        refine ⟨?_, h.nodup⟩
        intro hcontra
        obtain ⟨q, hq, hqid⟩ := List.mem_map.mp hcontra
        have := h.ids_lt q hq
        have : newp.id = bank.next_id := rfl
        omega
      · intro p hp
        rcases List.mem_cons.mp hp with heq | hmem
        · subst heq
          show bank.next_id < bank.next_id + 1
          omega
        · show p.id < bank.next_id + 1
          have := h.ids_lt p hmem
          omega
      · intro p hp lp rp hpop
        rcases List.mem_cons.mp hp with heq | hmem
        · subst heq
          have : lp = l ∧ rp = r := by
            have : newp.op = .combine l r := rfl
            rw [this] at hpop
            exact ⟨(Operator.combine.injEq _ _ _ _ ▸ hpop).1.symm,
              (Operator.combine.injEq _ _ _ _ ▸ hpop).2.symm⟩
          show lp < bank.next_id ∧ rp < bank.next_id
          omega
        · exact h.ordered p hmem lp rp hpop
      · intro e he
        rcases List.mem_cons.mp he with heq | hmem
        · subst heq
          exact ⟨newp, List.mem_cons_self _ _, rfl, rfl⟩
        · obtain ⟨p, hmem2, hpid, hpop⟩ := h.pair_consistent e hmem
          exact ⟨p, List.mem_cons_of_mem _ hmem2, hpid, hpop⟩
      · intro byte hbyte
        obtain ⟨p, hpget, hpop⟩ := h.literal_at byte hbyte
        refine ⟨p, ?_, hpop⟩
        have hblt : byte < bank.next_id := by
          have := h.ids_lt p (get_mem bank byte p hpget)
          have := get_id_eq bank byte p hpget
          omega
        show (newp :: bank.patterns).find? (fun q => q.id == byte) = some p
        rw [List.find?_cons_of_neg _ (by
          show ¬((bank.next_id : Nat) == byte) = true
          simp only [beq_iff_eq]
          omega)]
        exact hpget
      · show (newp :: bank.patterns).length ≤ bank.capacity
        rw [List.length_cons]
        omega
      · show ((newp :: bank.patterns).filter (fun p => p.is_literal)).length
          = 256
        rw [List.filter_cons_of_neg (by
          simp [show newp.is_literal = false from rfl])]
        exact h.lit_count
      · exact h.cap_ge

/-! ### The explore pipeline only sees pairs of stream tokens -/

/-- A `record` call introduces no key that was not already present or just
inserted. -/
theorem pair_stats_record_keys (key : Nat × Nat) :
    ∀ (counts : List ((Nat × Nat) × Nat)) (e : (Nat × Nat) × Nat),
      e ∈ pair_stats_record counts key →
        e.1 = key ∨ ∃ e0 ∈ counts, e.1 = e0.1 := by
  intro counts
  induction counts with
  | nil =>
    intro e he
    unfold pair_stats_record at he
    rcases List.mem_cons.mp he with heq | hmem
    · left; rw [heq]
    · cases hmem
  | cons a t ih =>
    intro e he
    unfold pair_stats_record at he
    by_cases ha : a.1 = key
    · rw [if_pos ha] at he
      rcases List.mem_cons.mp he with heq | hmem
      · right; exact ⟨a, List.mem_cons_self _ _, by rw [heq]⟩
      · right; exact ⟨e, List.mem_cons_of_mem _ hmem, rfl⟩
    · rw [if_neg ha] at he
      rcases List.mem_cons.mp he with heq | hmem
      · right; exact ⟨a, List.mem_cons_self _ _, by rw [heq]⟩
      · rcases ih e hmem with h1 | ⟨e0, he0, h2⟩
        · left; exact h1
        · right; exact ⟨e0, List.mem_cons_of_mem _ he0, h2⟩

/-- Keys produced by the counting fold are among the recorded pairs. -/
theorem pair_stats_fold_keys (P : Nat × Nat → Prop) :
    ∀ (ps : List (Nat × Nat)) (acc : List ((Nat × Nat) × Nat)),
      (∀ e ∈ acc, P e.1) → (∀ k ∈ ps, P k) →
      ∀ e ∈ ps.foldl pair_stats_record acc, P e.1 := by
  intro ps
  induction ps with
  | nil => intro acc hacc _ e he; exact hacc e he
  | cons k t ih =>
    intro acc hacc hps e he
    rw [List.foldl_cons] at he
    refine ih (pair_stats_record acc k) ?_ (fun x hx => hps x (List.mem_cons_of_mem _ hx)) e he
    intro e2 he2
    rcases pair_stats_record_keys k acc e2 he2 with h1 | ⟨e0, he0, h2⟩
    · rw [h1]; exact hps k (List.mem_cons_self _ _)
    · rw [h2]; exact hacc e0 he0

/-- Every entry of the pair statistics is an adjacent pair of the stream. -/
theorem compute_pair_stats_keys (stream : List Nat) (e : (Nat × Nat) × Nat)
    (he : e ∈ compute_pair_stats stream) : e.1 ∈ stream_pairs stream := by
  unfold compute_pair_stats at he
  by_cases hlen : stream.length < 2
  · rw [if_pos hlen] at he; cases he
  · rw [if_neg hlen] at he
    exact pair_stats_fold_keys (fun k => k ∈ stream_pairs stream)
      (stream_pairs stream) [] (fun e2 he2 => absurd he2 (List.not_mem_nil e2))
      (fun k hk => hk) e he

/-- Membership through the stable descending insertion. -/
theorem mem_insert_by_count_desc (x e : (Nat × Nat) × Nat) :
    ∀ l : List ((Nat × Nat) × Nat),
      e ∈ insert_by_count_desc x l → e = x ∨ e ∈ l := by
  intro l
  induction l with
  | nil =>
    intro he
    unfold insert_by_count_desc at he
    rcases List.mem_cons.mp he with heq | hmem
    · left; exact heq
    · cases hmem
  | cons y ys ih =>
    intro he
    unfold insert_by_count_desc at he
    by_cases hy : y.2 < x.2
    · rw [if_pos hy] at he
      rcases List.mem_cons.mp he with heq | hmem
      · left; exact heq
      · right; exact hmem
    · rw [if_neg hy] at he
      rcases List.mem_cons.mp he with heq | hmem
      · right; rw [heq]; exact List.mem_cons_self _ _
      · rcases ih hmem with h1 | h2
        · left; exact h1
        · right; exact List.mem_cons_of_mem _ h2

/-- Membership through the stable descending sort. -/
theorem mem_sort_by_count_desc (e : (Nat × Nat) × Nat) :
    ∀ l : List ((Nat × Nat) × Nat), e ∈ sort_by_count_desc l → e ∈ l := by
  intro l
  induction l with
  | nil => intro he; cases he
  | cons x xs ih =>
    intro he
    unfold sort_by_count_desc at he
    rcases mem_insert_by_count_desc x e (sort_by_count_desc xs) he with h1 | h2
    · rw [h1]; exact List.mem_cons_self _ _
    · exact List.mem_cons_of_mem _ (ih h2)

/-- Top pairs are pairs of adjacent stream tokens. -/
theorem top_pair_in_stream (stream : List Nat) (threshold max_count : Nat)
    (e : (Nat × Nat) × Nat)
    (he : e ∈ get_top_pairs (compute_pair_stats stream) threshold max_count) :
    e.1.1 ∈ stream ∧ e.1.2 ∈ stream := by
  unfold get_top_pairs at he
  have h1 := List.take_subset max_count _ he
  have h2 := mem_sort_by_count_desc e _ h1
  have h3 := (List.mem_filter.mp h2).1
  have h4 := compute_pair_stats_keys stream e h3
  unfold stream_pairs at h4
  have h5 : e.1 = (e.1.1, e.1.2) := rfl
  rw [h5] at h4
  have h6 := List.of_mem_zip h4
  exact ⟨h6.1, List.drop_subset 1 stream h6.2⟩

/-- The `strengthen` entry rewrite preserves id and op. -/
theorem strengthen_entry_fields (id : Nat) (amount : ℚ) (cycle : Nat)
    (p : Pattern) :
    ((if p.id = id then p.strengthen amount cycle else p) : Pattern).id = p.id
      ∧ ((if p.id = id then p.strengthen amount cycle else p) : Pattern).op
        = p.op := by
  by_cases h : p.id = id <;> simp [Pattern.strengthen, h]

/-- `strengthen_in_bank` keeps a bank well formed. -/
theorem strengthen_in_bank_wf (bank : PatternBank) (id : Nat) (amount : ℚ)
    (cycle : Nat) (h : BankLiveWF bank) :
    BankLiveWF (strengthen_in_bank bank id amount cycle) :=
  map_preserves_live_wf bank _
    (fun p => (strengthen_entry_fields id amount cycle p).1)
    (fun p => (strengthen_entry_fields id amount cycle p).2) h

/-- `strengthen_in_bank` is a bank evolution. -/
theorem strengthen_in_bank_evolves (bank : PatternBank) (id : Nat)
    (amount : ℚ) (cycle : Nat) :
    BankEvolves bank (strengthen_in_bank bank id amount cycle) :=
  map_evolves bank _
    (fun p => (strengthen_entry_fields id amount cycle p).1)
    (fun p => (strengthen_entry_fields id amount cycle p).2)

/-- One explore step preserves well-formedness, evolves the bank, and
changes nothing but the bank. -/
theorem explore_step_preserves (b : Builder) (n : Nat)
    (e : (Nat × Nat) × Nat) (hWF : BankLiveWF b.bank)
    (hl : (b.bank.get e.1.1).isSome) (hr : (b.bank.get e.1.2).isSome) :
    BankLiveWF (Builder.explore_step (b, n) e).1.bank
      ∧ BankEvolves b.bank (Builder.explore_step (b, n) e).1.bank
      ∧ (Builder.explore_step (b, n) e).1
          = { b with bank := (Builder.explore_step (b, n) e).1.bank } := by
  unfold Builder.explore_step
  by_cases hpair : b.bank.has_pair e.1.1 e.1.2
  · rw [if_pos hpair]
    cases hgp : b.bank.get_pair_id e.1.1 e.1.2 with
    | some id =>
      exact ⟨strengthen_in_bank_wf _ _ _ _ hWF,
        strengthen_in_bank_evolves _ _ _ _, rfl⟩
    | none => exact ⟨hWF, bank_evolves_refl _, rfl⟩
  · rw [if_neg hpair]
    dsimp only
    cases hc : (b.bank.create_combine e.1.1 e.1.2 b.cycle).2 with
    | some id =>
      exact ⟨create_preserves_live_wf _ _ _ _ hl hr hWF,
        create_evolves _ _ _ _ hWF, rfl⟩
    | none =>
      exact ⟨create_preserves_live_wf _ _ _ _ hl hr hWF,
        create_evolves _ _ _ _ hWF, rfl⟩

/-- The explore fold preserves well-formedness, evolves the bank, and
changes nothing but the bank. -/
theorem explore_fold_preserves (top : List ((Nat × Nat) × Nat)) :
    ∀ (b : Builder) (n : Nat),
      BankLiveWF b.bank →
      (∀ e ∈ top, e.1.1 ∈ b.token_stream ∧ e.1.2 ∈ b.token_stream) →
      StreamOK b.bank b.token_stream →
      BankLiveWF (top.foldl Builder.explore_step (b, n)).1.bank
        ∧ BankEvolves b.bank (top.foldl Builder.explore_step (b, n)).1.bank
        ∧ (top.foldl Builder.explore_step (b, n)).1
            = { b with bank := (top.foldl Builder.explore_step (b, n)).1.bank } := by
  induction top with
  | nil =>
    intro b n hWF _ _
    exact ⟨hWF, bank_evolves_refl _, rfl⟩
  | cons e t ih =>
    intro b n hWF hmem hstream
    have hl : (b.bank.get e.1.1).isSome :=
      hstream e.1.1 (hmem e (List.mem_cons_self _ _)).1
    have hr : (b.bank.get e.1.2).isSome :=
      hstream e.1.2 (hmem e (List.mem_cons_self _ _)).2
    obtain ⟨hWF2, hevo2, heq2⟩ := explore_step_preserves b n e hWF hl hr
    rw [List.foldl_cons]
    have hpair : Builder.explore_step (b, n) e
        = ((Builder.explore_step (b, n) e).1, (Builder.explore_step (b, n) e).2) := rfl
    rw [hpair, heq2]
    have hstream2 : StreamOK (Builder.explore_step (b, n) e).1.bank b.token_stream :=
      fun t2 ht2 => hevo2.2.2.2 t2 (hstream t2 ht2)
    obtain ⟨hWF3, hevo3, heq3⟩ :=
      ih { b with bank := (Builder.explore_step (b, n) e).1.bank }
        (Builder.explore_step (b, n) e).2 hWF2
        (fun e2 he2 => hmem e2 (List.mem_cons_of_mem _ he2))
        hstream2
    exact ⟨hWF3, bank_evolves_trans hevo2 hevo3, heq3⟩

/-- `Builder::explore` preserves the invariants, evolves the bank and leaves
everything but the bank unchanged. -/
theorem explore_preserves (b : Builder) (hWF : BankLiveWF b.bank)
    (hstream : StreamOK b.bank b.token_stream) :
    BankLiveWF b.explore.1.bank
      ∧ BankEvolves b.bank b.explore.1.bank
      ∧ b.explore.1 = { b with bank := b.explore.1.bank } :=
  explore_fold_preserves _ b 0 hWF
    (fun e he => top_pair_in_stream b.token_stream b.pair_threshold
      MAX_TOP_PAIRS e he)
    hstream

/-! ### Collapse preserves the decoded bytes -/

/-- A filter and its negation partition a list. -/
theorem length_filter_add_not (q : Pattern → Bool) :
    ∀ l : List Pattern,
      (l.filter q).length + (l.filter (fun x => !q x)).length = l.length := by
  intro l
  induction l with
  | nil => rfl
  | cons a t ih =>
    by_cases ha : q a = true
    · rw [List.filter_cons_of_pos ha,
        List.filter_cons_of_neg (by simp [ha]), List.length_cons,
        List.length_cons]
      omega
    · rw [List.filter_cons_of_neg ha,
        List.filter_cons_of_pos (by simp [Bool.not_eq_true] at ha; simp [ha]),
        List.length_cons, List.length_cons]
      omega

/-- In a well-formed bank the composite count is the total count minus the
256 literals. -/
theorem combine_count_eq (bank : PatternBank) (h : BankLiveWF bank) :
    bank.combine_count = bank.patterns.length - 256 := by
  have hpart := length_filter_add_not (fun p => p.is_literal) bank.patterns
  have hlit := h.lit_count
  unfold PatternBank.combine_count
  omega

/-- `strengthen_in_bank` does not change which ids resolve. -/
theorem strengthen_get_isSome (bank : PatternBank) (id : Nat) (amount : ℚ)
    (cycle : Nat) (t : Nat) :
    ((strengthen_in_bank bank id amount cycle).get t).isSome
      = (bank.get t).isSome := by
  unfold strengthen_in_bank
  rw [get_map bank _ (fun p => (strengthen_entry_fields id amount cycle p).1) t]
  cases bank.get t <;> rfl

/-- `strengthen_in_bank` does not change decoding. -/
theorem strengthen_decodeF (bank : PatternBank) (id : Nat) (amount : ℚ)
    (cycle : Nat) (fuel i : Nat) :
    (strengthen_in_bank bank id amount cycle).decodeF fuel i
      = bank.decodeF fuel i := by
  unfold strengthen_in_bank
  exact decodeF_map bank _
    (fun p => (strengthen_entry_fields id amount cycle p).1)
    (fun p => (strengthen_entry_fields id amount cycle p).2) fuel i

/-- A pair-index hit decodes to the concatenation of the decodings of the
two children: the composite id found by `get_pair_id` resolves, and its
bytes are exactly those of the pair it stands for. -/
theorem decode_pair (bank : PatternBank) (h : BankLiveWF bank) (x y cid : Nat)
    (hpid : bank.get_pair_id x y = some cid) :
    (bank.get cid).isSome
      ∧ bank.decode cid = bank.decode x ++ bank.decode y := by
  unfold PatternBank.get_pair_id at hpid
  cases hfind : bank.pair_lookup.find? (fun e => e.1 == (x, y)) with
  | none => rw [hfind] at hpid; cases hpid
  | some e =>
    rw [hfind] at hpid
    have he2 : e.2 = cid := Option.some.inj hpid
    have hkey : e.1 = (x, y) := by
      have := List.find?_some hfind
      simpa using this
    have hmem := List.mem_of_find?_eq_some hfind
    obtain ⟨p, hp, hpid2, hpop⟩ := h.pair_consistent e hmem
    have hx1 : e.1.1 = x := by rw [hkey]
    have hy1 : e.1.2 = y := by rw [hkey]
    have hpop2 : p.op = .combine x y := by rw [hpop, hx1, hy1]
    have hget : bank.get cid = some p := by
      have := get_of_mem_nodup bank p h.nodup hp
      rw [hpid2, he2] at this
      exact this
    have hchild := h.ordered p hp x y hpop2
    have hplt : p.id = cid := by rw [hpid2, he2]
    have hx : x < cid := by omega
    have hy : y < cid := by omega
    refine ⟨by rw [hget]; rfl, ?_⟩
    show bank.decodeF (cid + 1) cid = _
    simp only [PatternBank.decodeF, hget, hpop2]
    rw [decodeF_eq_decode bank h.ordered x cid hx,
      decodeF_eq_decode bank h.ordered y cid hy]

/-- Resolvable ids lie below the allocator. -/
theorem resolvable_lt (bank : PatternBank) (h : BankLiveWF bank) (t : Nat)
    (ht : (bank.get t).isSome) : t < bank.next_id := by
  obtain ⟨p, hp⟩ := Option.isSome_iff_exists.mp ht
  have := h.ids_lt p (get_mem bank t p hp)
  have := get_id_eq bank t p hp
  omega

/-- Flattening singleton images recovers the list. -/
theorem flatten_map_singleton (f : Nat → List Nat) :
    ∀ l : List Nat, (∀ x ∈ l, f x = [x]) → (l.map f).flatten = l := by
  intro l
  induction l with
  | nil => intro _; rfl
  | cons a t ih =>
    intro hl
    rw [List.map_cons, List.flatten_cons, hl a (List.mem_cons_self _ _),
      ih (fun x hx => hl x (List.mem_cons_of_mem _ hx))]
    rfl

/-- Banks with identical `decodeF` have identical `decode` maps. -/
theorem decode_map_congr (bank bank2 : PatternBank)
    (h : ∀ fuel id, bank2.decodeF fuel id = bank.decodeF fuel id)
    (l : List Nat) : l.map bank2.decode = l.map bank.decode :=
  List.map_congr_left (fun t _ => h (t + 1) t)

/-- The collapse scan preserves decoding (in particular the decoded bytes of
the stream), resolvability, the allocator, the capacity, and
well-formedness; every emitted token resolves. -/
theorem collapse_go_spec :
    ∀ (n : Nat) (stream : List Nat) (bank : PatternBank) (amount : ℚ)
      (cycle : Nat),
      stream.length ≤ n → BankLiveWF bank → StreamOK bank stream →
      (∀ fuel id, (collapse_go bank stream amount cycle).1.decodeF fuel id
          = bank.decodeF fuel id)
      ∧ (∀ t, ((collapse_go bank stream amount cycle).1.get t).isSome
          = (bank.get t).isSome)
      ∧ (collapse_go bank stream amount cycle).1.capacity = bank.capacity
      ∧ (collapse_go bank stream amount cycle).1.next_id = bank.next_id
      ∧ BankLiveWF (collapse_go bank stream amount cycle).1
      ∧ StreamOK bank (collapse_go bank stream amount cycle).2.1
      ∧ ((collapse_go bank stream amount cycle).2.1.map bank.decode).flatten
          = (stream.map bank.decode).flatten := by
  intro n
  induction n with
  | zero =>
    intro stream bank amount cycle hlen hWF hstream
    have hnil : stream = [] := List.length_eq_zero.mp (Nat.le_zero.mp hlen)
    subst hnil
    exact ⟨fun _ _ => rfl, fun _ => rfl, rfl, rfl, hWF, hstream, rfl⟩
  | succ m ih =>
    intro stream bank amount cycle hlen hWF hstream
    match stream with
    | [] => exact ⟨fun _ _ => rfl, fun _ => rfl, rfl, rfl, hWF, hstream, rfl⟩
    | [x] => exact ⟨fun _ _ => rfl, fun _ => rfl, rfl, rfl, hWF, hstream, rfl⟩
    | x :: y :: rest =>
      have hlen2 : (y :: rest).length ≤ m := by
        simp only [List.length_cons] at hlen ⊢
        omega
      have hstream_tail : StreamOK bank (y :: rest) :=
        fun t ht => hstream t (List.mem_cons_of_mem _ ht)
      cases hpid : bank.get_pair_id x y with
      | none =>
        obtain ⟨hdec, hsome, hcap, hnext, hWF2, hout, hbytes⟩ :=
          ih (y :: rest) bank amount cycle hlen2 hWF hstream_tail
        have heq : collapse_go bank (x :: y :: rest) amount cycle
            = ((collapse_go bank (y :: rest) amount cycle).1,
               x :: (collapse_go bank (y :: rest) amount cycle).2.1,
               (collapse_go bank (y :: rest) amount cycle).2.2) := by
          simp only [collapse_go, hpid]
        rw [heq]
        refine ⟨hdec, hsome, hcap, hnext, hWF2, ?_, ?_⟩
        · intro t ht
          rcases List.mem_cons.mp ht with heq2 | hmem
          · rw [heq2]; exact hstream x (List.mem_cons_self _ _)
          · exact hout t hmem
        · rw [List.map_cons, List.flatten_cons, hbytes]
          rfl
      | some cid =>
        obtain ⟨hcid_some, hcid_bytes⟩ := decode_pair bank hWF x y cid hpid
        obtain ⟨p, hget⟩ := Option.isSome_iff_exists.mp hcid_some
        by_cases hstr : Rat.divInt 1 2 ≤ p.strength
        · -- substitution branch
          set bank2 := strengthen_in_bank bank cid amount cycle with hbank2
          have hWF2 : BankLiveWF bank2 :=
            strengthen_in_bank_wf bank cid amount cycle hWF
          have hsome2 : ∀ t, (bank2.get t).isSome = (bank.get t).isSome :=
            fun t => strengthen_get_isSome bank cid amount cycle t
          have hdec2 : ∀ fuel i, bank2.decodeF fuel i = bank.decodeF fuel i :=
            fun fuel i => strengthen_decodeF bank cid amount cycle fuel i
          have hstream2 : StreamOK bank2 rest := by
            intro t ht
            show (bank2.get t).isSome
            rw [hsome2 t]
            exact hstream t (List.mem_cons_of_mem _ (List.mem_cons_of_mem _ ht))
          have hlen3 : rest.length ≤ m := by
            simp only [List.length_cons] at hlen
            omega
          obtain ⟨hdec, hsome, hcap, hnext, hWF3, hout, hbytes⟩ :=
            ih rest bank2 amount cycle hlen3 hWF2 hstream2
          have heq : collapse_go bank (x :: y :: rest) amount cycle
              = ((collapse_go bank2 rest amount cycle).1,
                 cid :: (collapse_go bank2 rest amount cycle).2.1,
                 (collapse_go bank2 rest amount cycle).2.2 + 1) := by
            simp only [collapse_go, hpid, hget, if_pos hstr]
          rw [heq]
          refine ⟨?_, ?_, ?_, ?_, hWF3, ?_, ?_⟩
          · intro fuel i
            rw [hdec fuel i, hdec2 fuel i]
          · intro t
            rw [hsome t, hsome2 t]
          · rw [hcap]; rfl
          · rw [hnext]; rfl
          · intro t ht
            rcases List.mem_cons.mp ht with heq2 | hmem
            · rw [heq2]
              show (bank.get cid).isSome
              exact hcid_some
            · show (bank.get t).isSome
              rw [← hsome2 t]
              exact hout t hmem
          · rw [List.map_cons, List.flatten_cons]
            have hmapout := decode_map_congr bank bank2 hdec2
              (collapse_go bank2 rest amount cycle).2.1
            have hmaprest := decode_map_congr bank bank2 hdec2 rest
            rw [← hmapout, hbytes, hmaprest, hcid_bytes]
            show (bank.decode x ++ bank.decode y)
                ++ (rest.map bank.decode).flatten
              = ((x :: y :: rest).map bank.decode).flatten
            simp [List.append_assoc]
        · -- strength too low: skip
          obtain ⟨hdec, hsome, hcap, hnext, hWF2, hout, hbytes⟩ :=
            ih (y :: rest) bank amount cycle hlen2 hWF hstream_tail
          have heq : collapse_go bank (x :: y :: rest) amount cycle
              = ((collapse_go bank (y :: rest) amount cycle).1,
                 x :: (collapse_go bank (y :: rest) amount cycle).2.1,
                 (collapse_go bank (y :: rest) amount cycle).2.2) := by
            simp only [collapse_go, hpid, hget, if_neg hstr]
          rw [heq]
          refine ⟨hdec, hsome, hcap, hnext, hWF2, ?_, ?_⟩
          · intro t ht
            rcases List.mem_cons.mp ht with heq2 | hmem
            · rw [heq2]; exact hstream x (List.mem_cons_self _ _)
            · exact hout t hmem
          · rw [List.map_cons, List.flatten_cons, hbytes]
            rfl

/-- One collapse pass preserves the invariants and the decoded bytes. -/
theorem collapse_spec (b : Builder) (hWF : BankLiveWF b.bank)
    (hstream : StreamOK b.bank b.token_stream) :
    BankLiveWF b.collapse.1.bank
    ∧ StreamOK b.collapse.1.bank b.collapse.1.token_stream
    ∧ (∀ fuel id, b.collapse.1.bank.decodeF fuel id = b.bank.decodeF fuel id)
    ∧ b.collapse.1.bank.capacity = b.bank.capacity
    ∧ b.collapse.1.decode_stream = b.decode_stream := by
  by_cases hlt : b.token_stream.length < 2
  · have heq : b.collapse = (b, 0) := by
      unfold Builder.collapse
      rw [if_pos hlt]
    rw [heq]
    exact ⟨hWF, hstream, fun _ _ => rfl, rfl, rfl⟩
  · obtain ⟨hdec, hsome, hcap, _, hWF2, hout, hbytes⟩ :=
      collapse_go_spec b.token_stream.length b.token_stream b.bank
        b.strengthen_amount b.cycle (Nat.le_refl _) hWF hstream
    have heq : b.collapse
        = ({ b with
              bank := (collapse_go b.bank b.token_stream b.strengthen_amount
                b.cycle).1
              token_stream := (collapse_go b.bank b.token_stream
                b.strengthen_amount b.cycle).2.1 },
           (collapse_go b.bank b.token_stream b.strengthen_amount
                b.cycle).2.2) := by
      unfold Builder.collapse
      rw [if_neg hlt]
    rw [heq]
    refine ⟨hWF2, ?_, hdec, hcap, ?_⟩
    · intro t ht
      show ((collapse_go b.bank b.token_stream b.strengthen_amount
          b.cycle).1.get t).isSome
      rw [hsome t]
      exact hout t ht
    · show ((collapse_go b.bank b.token_stream b.strengthen_amount
          b.cycle).2.1.map
            (collapse_go b.bank b.token_stream b.strengthen_amount
              b.cycle).1.decode).flatten
        = b.decode_stream
      rw [decode_map_congr b.bank _ hdec, hbytes]
      rfl

/-- The collapse-until-fixpoint loop preserves the invariants and the
decoded bytes. -/
theorem collapse_loop_spec :
    ∀ (fuel : Nat) (b : Builder), BankLiveWF b.bank →
      StreamOK b.bank b.token_stream →
      BankLiveWF (collapse_loop fuel b).1.bank
      ∧ StreamOK (collapse_loop fuel b).1.bank
          (collapse_loop fuel b).1.token_stream
      ∧ (collapse_loop fuel b).1.bank.capacity = b.bank.capacity
      ∧ (collapse_loop fuel b).1.decode_stream = b.decode_stream := by
  intro fuel
  induction fuel with
  | zero => intro b hWF hstream; exact ⟨hWF, hstream, rfl, rfl⟩
  | succ m ih =>
    intro b hWF hstream
    obtain ⟨hWF2, hstream2, _, hcap2, hdec2⟩ := collapse_spec b hWF hstream
    by_cases hz : b.collapse.2 = 0
    · have heq : collapse_loop (m + 1) b = (b.collapse.1, 0) := by
        rw [collapse_loop]
        dsimp only
        rw [if_pos hz]
      rw [heq]
      exact ⟨hWF2, hstream2, hcap2, hdec2⟩
    · have heq : collapse_loop (m + 1) b
          = ((collapse_loop m b.collapse.1).1,
             b.collapse.2 + (collapse_loop m b.collapse.1).2) := by
        rw [collapse_loop]
        dsimp only
        rw [if_neg hz]
      rw [heq]
      obtain ⟨hWF3, hstream3, hcap3, hdec3⟩ := ih b.collapse.1 hWF2 hstream2
      exact ⟨hWF3, hstream3, hcap3.trans hcap2, hdec3.trans hdec2⟩

/-- With the bank capacity at most 1280 (a composite budget of at most
1024), the unforced `forget` never fires: the composite count can never
exceed 80 percent of the stored capacity. -/
theorem forget_noop (b : Builder) (hWF : BankLiveWF b.bank)
    (hcap : b.bank.capacity ≤ 1280) : b.forget 0 = (b, 0) := by
  have hcc := combine_count_eq b.bank hWF
  have hlen := hWF.len_le
  have hge := hWF.cap_ge
  have hcond : ¬ (b.bank.capacity * 80 / 100 < b.bank.combine_count) := by
    omega
  unfold Builder.forget
  dsimp only
  rw [if_neg (by omega : ¬ (0 : Nat) < 0), if_neg hcond, if_pos rfl]

/-- The id and operator of an entry survive the decay rewrite. -/
theorem decay_entry_fields (amount : ℚ) (p : Pattern) :
    ((if p.is_literal then p else p.weaken amount) : Pattern).id = p.id
    ∧ ((if p.is_literal then p else p.weaken amount) : Pattern).op = p.op := by
  by_cases h : p.is_literal <;> simp [Pattern.weaken, h]

/-- Decay preserves the invariants and the decoded bytes. -/
theorem decay_spec (b : Builder) (amount : ℚ) (hWF : BankLiveWF b.bank)
    (hstream : StreamOK b.bank b.token_stream) :
    BankLiveWF (b.decay amount).bank
    ∧ StreamOK (b.decay amount).bank (b.decay amount).token_stream
    ∧ (b.decay amount).bank.capacity = b.bank.capacity
    ∧ (b.decay amount).decode_stream = b.decode_stream := by
  have hid : ∀ p : Pattern,
      ((if p.is_literal then p else p.weaken amount) : Pattern).id = p.id :=
    fun p => (decay_entry_fields amount p).1
  have hop : ∀ p : Pattern,
      ((if p.is_literal then p else p.weaken amount) : Pattern).op = p.op :=
    fun p => (decay_entry_fields amount p).2
  refine ⟨map_preserves_live_wf b.bank _ hid hop hWF, ?_, rfl, ?_⟩
  · intro t ht
    show (({ b.bank with
        patterns := b.bank.patterns.map
          (fun p => if p.is_literal then p else p.weaken amount) }
        : PatternBank).get t).isSome
    rw [get_map b.bank _ hid t]
    have := hstream t ht
    cases hg : b.bank.get t with
    | none => rw [hg] at this; cases this
    | some p => rfl
  · show ((b.token_stream.map ({ b.bank with
        patterns := b.bank.patterns.map
          (fun p => if p.is_literal then p else p.weaken amount) }
        : PatternBank).decode)).flatten = b.decode_stream
    rw [decode_map_congr b.bank _
      (fun fuel i => decodeF_map b.bank _ hid hop fuel i)]
    rfl

/-- `Builder::explore` preserves the invariants, the stream and the decoded
bytes. -/
theorem explore_spec (b : Builder) (hWF : BankLiveWF b.bank)
    (hstream : StreamOK b.bank b.token_stream) :
    BankLiveWF b.explore.1.bank
    ∧ StreamOK b.explore.1.bank b.explore.1.token_stream
    ∧ b.explore.1.bank.capacity = b.bank.capacity
    ∧ b.explore.1.decode_stream = b.decode_stream
    ∧ b.explore.1.token_stream = b.token_stream := by
  obtain ⟨hWF2, hevo, heq⟩ := explore_preserves b hWF hstream
  have htok : b.explore.1.token_stream = b.token_stream := by rw [heq]
  refine ⟨hWF2, ?_, hevo.1, ?_, htok⟩
  · intro t ht
    rw [htok] at ht
    exact hevo.2.2.2 t (hstream t ht)
  · show (b.explore.1.token_stream.map b.explore.1.bank.decode).flatten
      = b.decode_stream
    rw [htok]
    have hmap : b.token_stream.map b.explore.1.bank.decode
        = b.token_stream.map b.bank.decode := by
      refine List.map_congr_left (fun t ht => ?_)
      have hlt := resolvable_lt b.bank hWF t (hstream t ht)
      exact hevo.2.2.1 (t + 1) t hlt
    rw [hmap]
    rfl

/-- One `live` cycle, at small capacity, preserves the invariants, the
capacity and the decoded bytes. -/
theorem live_spec (b : Builder) (hWF : BankLiveWF b.bank)
    (hstream : StreamOK b.bank b.token_stream)
    (hcap : b.bank.capacity ≤ 1280) :
    BankLiveWF b.live.bank
    ∧ StreamOK b.live.bank b.live.token_stream
    ∧ b.live.bank.capacity = b.bank.capacity
    ∧ b.live.decode_stream = b.decode_stream := by
  obtain ⟨h2WF, h2st, h2cap, h2dec, _⟩ :=
    explore_spec { b with cycle := b.cycle + 1 } hWF hstream
  obtain ⟨h3WF, h3st, h3cap, h3dec⟩ :=
    collapse_loop_spec
      (({ b with cycle := b.cycle + 1 } : Builder).explore.1.token_stream.length + 1)
      ({ b with cycle := b.cycle + 1 } : Builder).explore.1 h2WF h2st
  have hforget :
      (collapse_loop
        (({ b with cycle := b.cycle + 1 } : Builder).explore.1.token_stream.length + 1)
        ({ b with cycle := b.cycle + 1 } : Builder).explore.1).1.forget 0
      = ((collapse_loop
        (({ b with cycle := b.cycle + 1 } : Builder).explore.1.token_stream.length + 1)
        ({ b with cycle := b.cycle + 1 } : Builder).explore.1).1, 0) :=
    forget_noop _ h3WF (by rw [h3cap, h2cap]; exact hcap)
  have hlive : b.live
      = (collapse_loop
        (({ b with cycle := b.cycle + 1 } : Builder).explore.1.token_stream.length + 1)
        ({ b with cycle := b.cycle + 1 } : Builder).explore.1).1.decay
          DEFAULT_DECAY_RATE := by
    unfold Builder.live
    dsimp only
    rw [hforget]
  obtain ⟨h4WF, h4st, h4cap, h4dec⟩ :=
    decay_spec _ DEFAULT_DECAY_RATE h3WF h3st
  rw [hlive]
  exact ⟨h4WF, h4st, h4cap.trans (h3cap.trans h2cap),
    h4dec.trans (h3dec.trans h2dec)⟩

/-- N `live` cycles, at small capacity, preserve the invariants, the
capacity and the decoded bytes. -/
theorem liveN_spec (b : Builder) (hWF : BankLiveWF b.bank)
    (hstream : StreamOK b.bank b.token_stream)
    (hcap : b.bank.capacity ≤ 1280) :
    ∀ n : Nat,
      BankLiveWF (b.liveN n).bank
      ∧ StreamOK (b.liveN n).bank (b.liveN n).token_stream
      ∧ (b.liveN n).bank.capacity = b.bank.capacity
      ∧ (b.liveN n).decode_stream = b.decode_stream := by
  intro n
  induction n with
  | zero => exact ⟨hWF, hstream, rfl, rfl⟩
  | succ m ih =>
    obtain ⟨hWF2, hstream2, hcap2, hdec2⟩ := ih
    obtain ⟨hWF3, hstream3, hcap3, hdec3⟩ :=
      live_spec (b.liveN m) hWF2 hstream2 (by rw [hcap2]; exact hcap)
    exact ⟨hWF3, hstream3, hcap3.trans hcap2, hdec3.trans hdec2⟩

/-- Lookup in the initial literal table. -/
theorem range_literal_find :
    ∀ (n : Nat) (byte : Nat), byte < n →
      ((List.range n).map (fun b => Pattern.new_literal b b)).find?
          (fun p => p.id == byte) = some (Pattern.new_literal byte byte) := by
  intro n
  induction n with
  | zero => intro byte hb; omega
  | succ m ih =>
    intro byte hb
    rw [List.range_succ, List.map_append, List.find?_append]
    by_cases hbm : byte < m
    · rw [ih byte hbm]
      rfl
    · have hbe : byte = m := by omega
      subst hbe
      have hleft : ((List.range byte).map
          (fun b => Pattern.new_literal b b)).find?
            (fun p => p.id == byte) = none := by
        refine List.find?_eq_none.mpr ?_
        intro x hx
        obtain ⟨b, hbr, rfl⟩ := List.mem_map.mp hx
        have : b < byte := List.mem_range.mp hbr
        show ¬ ((Pattern.new_literal b b).id == byte) = true
        simp only [beq_iff_eq]
        show ¬ b = byte
        omega
      rw [hleft]
      show Option.or none (List.find? (fun p => p.id == byte)
          [Pattern.new_literal byte byte])
        = some (Pattern.new_literal byte byte)
      rw [List.find?_cons_of_pos _ (by simp [Pattern.new_literal])]
      rfl

/-- The freshly constructed bank is well formed. -/
theorem new_bank_live_wf (c : Nat) : BankLiveWF (PatternBank.new c) := by
  refine ⟨?_, ?_, ?_, ?_, ?_, ?_, ?_, ?_⟩
  · show (((List.range 256).map (fun b => Pattern.new_literal b b)).map
      (fun p => p.id)).Nodup
    rw [List.map_map]
    have : ((fun p : Pattern => p.id) ∘ (fun b => Pattern.new_literal b b))
        = fun b => b := rfl
    rw [this]
    simpa using List.nodup_range 256
  · intro p hp
    obtain ⟨b, hbr, rfl⟩ := List.mem_map.mp hp
    have : b < 256 := List.mem_range.mp hbr
    show b < 256
    omega
  · intro p hp l r hpop
    obtain ⟨b, hbr, rfl⟩ := List.mem_map.mp hp
    cases hpop
  · intro e he
    cases he
  · intro byte hbyte
    refine ⟨Pattern.new_literal byte byte, ?_, rfl⟩
    show ((List.range 256).map (fun b => Pattern.new_literal b b)).find?
        (fun p => p.id == byte) = some (Pattern.new_literal byte byte)
    exact range_literal_find 256 byte hbyte
  · show ((List.range 256).map (fun b => Pattern.new_literal b b)).length
      ≤ c + 256
    rw [List.length_map, List.length_range]
    omega
  · show (((List.range 256).map (fun b => Pattern.new_literal b b)).filter
      (fun p => p.is_literal)).length = 256
    rw [List.filter_eq_self.mpr (fun p hp => by
      obtain ⟨b, hbr, rfl⟩ := List.mem_map.mp hp
      rfl)]
    rw [List.length_map, List.length_range]
  · show 256 ≤ c + 256
    omega

/-- In any well-formed bank a byte id below 256 resolves and decodes to
itself. -/
theorem literal_decode (bank : PatternBank) (h : BankLiveWF bank)
    (byte : Nat) (hb : byte < 256) :
    (bank.get byte).isSome ∧ bank.decode byte = [byte] := by
  obtain ⟨p, hget, hop⟩ := h.literal_at byte hb
  refine ⟨by rw [hget]; rfl, ?_⟩
  show bank.decodeF (byte + 1) byte = [byte]
  simp only [PatternBank.decodeF, hget, hop]

/-- `tokenize` preserves the invariants and appends exactly the input bytes
to the decoded stream. -/
theorem tokenize_spec (b : Builder) (data : List Nat)
    (hWF : BankLiveWF b.bank) (hstream : StreamOK b.bank b.token_stream)
    (hdata : ∀ x ∈ data, x < 256) :
    BankLiveWF (b.tokenize data).bank
    ∧ StreamOK (b.tokenize data).bank (b.tokenize data).token_stream
    ∧ (b.tokenize data).bank.capacity = b.bank.capacity
    ∧ (b.tokenize data).decode_stream = b.decode_stream ++ data := by
  have hmapid : data.map (fun byte => b.bank.literal_id byte) = data :=
    List.map_id' data
  refine ⟨hWF, ?_, rfl, ?_⟩
  · intro t ht
    show (b.bank.get t).isSome
    have ht2 : t ∈ b.token_stream ++ data.map (fun byte => b.bank.literal_id byte) := ht
    rcases List.mem_append.mp ht2 with hold | hnew
    · exact hstream t hold
    · rw [hmapid] at hnew
      exact (literal_decode b.bank hWF t (hdata t hnew)).1
  · show ((b.token_stream ++ data.map (fun byte => b.bank.literal_id byte)).map
      b.bank.decode).flatten = b.decode_stream ++ data
    rw [hmapid, List.map_append, List.flatten_append]
    have hdatadec : (data.map b.bank.decode).flatten = data :=
      flatten_map_singleton b.bank.decode data
        (fun x hx => (literal_decode b.bank hWF x (hdata x hx)).2)
    rw [hdatadec]
    rfl

/-- Round trip of the live cycle at composite capacity up to 1024 (bank
capacity up to 1280): for every byte input and every number of cycles, the
decoded stream is exactly the input.  Together with
`forget_threshold_counterexample` this shows the unforced `forget` path —
the only step that can drop bytes — is unreachable at these capacities. -/
theorem live_roundtrip_small (cap : Nat) (hcap : cap ≤ 1024)
    (data : List Nat) (hdata : ∀ x ∈ data, x < 256) (n : Nat) :
    (((Builder.new cap).tokenize data).liveN n).decode_stream = data := by
  have hWF0 : BankLiveWF (Builder.new cap).bank := new_bank_live_wf cap
  have hstream0 : StreamOK (Builder.new cap).bank
      (Builder.new cap).token_stream :=
    fun t ht => absurd ht (List.not_mem_nil t)
  obtain ⟨hWF1, hstream1, hcap1, hdec1⟩ :=
    tokenize_spec (Builder.new cap) data hWF0 hstream0 hdata
  have hcap1' : ((Builder.new cap).tokenize data).bank.capacity ≤ 1280 := by
    rw [hcap1]
    show cap + 256 ≤ 1280
    omega
  obtain ⟨_, _, _, hdecN⟩ :=
    liveN_spec ((Builder.new cap).tokenize data) hWF1 hstream1 hcap1' n
  rw [hdecN, hdec1]
  rfl

end PetriDish
